import Mathlib

/-!
# Verification of the E-CIHMSB steganographic codec

Shallow embedding of the coverless steganography engine
(`embed.py`, `extract.py`, `permutation.py`, `image_processing.py`,
`binary_operations.py`, `mapping.py`, `secret_encoding.py`,
`image_encoding.py`, `config.py`) and proofs about it.

Modelling conventions:
* Python `int` bit lists are `List ℕ` (the code stores bits as the ints 0/1).
* numpy float64 arithmetic on pixel data is modelled by exact rationals `ℚ`.
  All hierarchical means of 8-bit pixels are dyadic rationals with tiny
  numerators, hence exactly representable in float64, so the model is exact
  for the averaging pipeline; the luminance weights 0.299/0.587/0.114 used
  for colour blocks are modelled by the exact rationals they denote.
* `numpy.argsort` on arrays of at most 16 elements runs an insertion sort,
  which is stable; it is modelled as the unique stable argsort (sorting the
  index list by value with ties broken by position).
* `hashlib.sha256` digests and the PCG64 draws behind
  `numpy.random.default_rng(seed).shuffle` are deterministic functions of the
  correspondent-key string.  A key is therefore modelled as the data the code
  actually consumes: an infinite supply of 32-byte digests (`chain`) for the
  keystream and an infinite supply of bounded draws (`draws`) for the
  Fisher-Yates shuffle.  `None` and the empty string (both falsy in Python)
  are the `none` key.
* PIL images are modelled by their pixel data after the mode normalisation
  performed at the top of `image_to_binary` (modes `L`, `RGB`, `RGBA`).
* Python exceptions are modelled with `Except`/`Option` return types.
-/

deriving instance DecidableEq for Except

/-! ## binary_operations.py -/

/-- MSB-first binary digit read-off, structurally recursive on a fuel
argument (`n` itself always suffices: the value halves every step). -/
def natDigitsF : ℕ → ℕ → List ℕ
  | 0, _ => []
  | fuel + 1, n => if n = 0 then [] else natDigitsF fuel (n / 2) ++ [n % 2]

/-- Minimal MSB-first binary digit list of a natural number; `bin(0)[2:]` is
the single digit string so `natDigits 0 = [0]`. -/
def natDigits (n : ℕ) : List ℕ :=
  if n = 0 then [0] else natDigitsF n n

theorem natDigitsF_eq (fuel : ℕ) : ∀ n : ℕ, n ≤ fuel →
    natDigitsF fuel n = (Nat.digits 2 n).reverse := by
  induction fuel with
  | zero =>
    intro n hn
    have : n = 0 := by omega
    subst this
    simp [natDigitsF]
  | succ fuel ih =>
    intro n hn
    by_cases h0 : n = 0
    · subst h0
      simp [natDigitsF]
    · rw [natDigitsF, if_neg h0, ih (n / 2) (by omega)]
      rw [Nat.digits_def' (by norm_num : 1 < 2) (by omega : 0 < n)]
      rw [List.reverse_cons]

/-- The fuel implementation agrees with Mathlib's `Nat.digits`. -/
theorem natDigits_eq_digits (n : ℕ) :
    natDigits n = if n = 0 then [0] else (Nat.digits 2 n).reverse := by
  rw [natDigits]
  by_cases h0 : n = 0
  · rw [if_pos h0, if_pos h0]
  · rw [if_neg h0, if_neg h0, natDigitsF_eq n n le_rfl]

/-- `int_to_binary(number, bit_length)`: `bin(number)[2:].zfill(bit_length)`.
Note `zfill` pads but never truncates, so for `2 ^ L ≤ n` the result is
longer than `L` - exactly as in the source. -/
def int_to_binary (number : ℕ) (bit_length : ℕ) : List ℕ :=
  List.replicate (bit_length - (natDigits number).length) 0 ++ natDigits number

/-- `binary_to_int(binary)`: `int(''.join(map(str, binary)), 2)`.
Total model of the MSB-first read-off; the Python call raises on an empty
list, which each call site below handles explicitly. -/
def binary_to_int (binary : List ℕ) : ℕ :=
  binary.foldl (fun a b => 2 * a + b) 0

/-- `get_msb(number)`: 1 iff the value is at least 128. -/
def get_msb (number : ℤ) : ℕ :=
  if 128 ≤ number then 1 else 0

/-- `get_msbs(numbers)`. -/
def get_msbs (numbers : List ℤ) : List ℕ :=
  numbers.map get_msb

/-! ### Lemmas about the bit codec -/

theorem binary_to_int_cons (b : ℕ) (t : List ℕ) :
    binary_to_int (b :: t) = b * 2 ^ t.length + binary_to_int t := by
  have key : ∀ (l : List ℕ) (a : ℕ),
      l.foldl (fun a b => 2 * a + b) a = a * 2 ^ l.length + l.foldl (fun a b => 2 * a + b) 0 := by
    intro l
    induction l with
    | nil => intro a; simp
    | cons x t ih =>
      intro a
      simp only [List.foldl_cons, List.length_cons]
      rw [ih (2 * a + x), ih (2 * 0 + x)]
      ring
  simp only [binary_to_int, List.foldl_cons]
  simpa using key t b

theorem binary_to_int_append (l t : List ℕ) :
    binary_to_int (l ++ t) = binary_to_int l * 2 ^ t.length + binary_to_int t := by
  induction l with
  | nil => simp [binary_to_int]
  | cons b r ih =>
    rw [List.cons_append, binary_to_int_cons, ih, binary_to_int_cons]
    rw [List.length_append]
    ring

theorem binary_to_int_replicate_zero (k : ℕ) (t : List ℕ) :
    binary_to_int (List.replicate k 0 ++ t) = binary_to_int t := by
  rw [binary_to_int_append]
  have : binary_to_int (List.replicate k 0) = 0 := by
    induction k with
    | zero => rfl
    | succ n ih => rw [List.replicate_succ, binary_to_int_cons, ih]; simp
  rw [this]; ring_nf

theorem binary_to_int_natDigits (n : ℕ) : binary_to_int (natDigits n) = n := by
  rw [natDigits_eq_digits]
  split
  · simp [binary_to_int]; omega
  · have key : ∀ l : List ℕ, binary_to_int l.reverse = Nat.ofDigits 2 l := by
      intro l
      induction l with
      | nil => rfl
      | cons d t ih =>
        rw [List.reverse_cons, binary_to_int_append, ih, Nat.ofDigits_cons]
        simp [binary_to_int, binary_to_int_cons]
        ring
    rw [key, Nat.ofDigits_digits]

theorem natDigits_length_le {n L : ℕ} (h : n < 2 ^ L) (hL : 1 ≤ L) :
    (natDigits n).length ≤ L := by
  rw [natDigits_eq_digits]
  split
  · simpa using hL
  · rw [List.length_reverse]
    rename_i hn
    rw [Nat.digits_len 2 n (by norm_num) hn]
    have : Nat.log 2 n < L := Nat.log_lt_of_lt_pow hn h
    omega

theorem binary_to_int_int_to_binary {n L : ℕ} (h : n < 2 ^ L) :
    binary_to_int (int_to_binary n L) = n := by
  rw [int_to_binary, binary_to_int_replicate_zero, binary_to_int_natDigits]

theorem int_to_binary_length {n L : ℕ} (h : n < 2 ^ L) (hL : 1 ≤ L) :
    (int_to_binary n L).length = L := by
  rw [int_to_binary, List.length_append, List.length_replicate]
  have := natDigits_length_le h hL
  omega

theorem natDigits_bits (n : ℕ) : ∀ b ∈ natDigits n, b ≤ 1 := by
  rw [natDigits_eq_digits]
  split
  · intro b hb; simp at hb; omega
  · intro b hb
    rw [List.mem_reverse] at hb
    have := Nat.digits_lt_base (by norm_num) hb
    omega

theorem int_to_binary_bits (n L : ℕ) : ∀ b ∈ int_to_binary n L, b ≤ 1 := by
  intro b hb
  rw [int_to_binary, List.mem_append] at hb
  rcases hb with hb | hb
  · simp at hb; omega
  · exact natDigits_bits n b hb

theorem binary_to_int_lt (l : List ℕ) (hl : ∀ b ∈ l, b ≤ 1) :
    binary_to_int l < 2 ^ l.length := by
  induction l with
  | nil => simp [binary_to_int]
  | cons b t ih =>
    rw [binary_to_int_cons, List.length_cons]
    have hb : b ≤ 1 := hl b (List.mem_cons_self ..)
    have ht := ih (fun x hx => hl x (List.mem_cons_of_mem _ hx))
    have : (2 : ℕ) ^ (t.length + 1) = 2 ^ t.length + 2 ^ t.length := by ring
    interval_cases b <;> omega

theorem binary_to_int_injOn {c d : List ℕ} (hlen : c.length = d.length)
    (hc : ∀ b ∈ c, b ≤ 1) (hd : ∀ b ∈ d, b ≤ 1)
    (h : binary_to_int c = binary_to_int d) : c = d := by
  induction c generalizing d with
  | nil => cases d with
    | nil => rfl
    | cons x t => simp at hlen
  | cons b t ih =>
    cases d with
    | nil => simp at hlen
    | cons b2 t2 =>
      simp only [List.length_cons] at hlen
      rw [binary_to_int_cons, binary_to_int_cons] at h
      have ht := binary_to_int_lt t (fun x hx => hc x (List.mem_cons_of_mem _ hx))
      have ht2 := binary_to_int_lt t2 (fun x hx => hd x (List.mem_cons_of_mem _ hx))
      have hb : b ≤ 1 := hc b (List.mem_cons_self ..)
      have hb2 : b2 ≤ 1 := hd b2 (List.mem_cons_self ..)
      have hl : t.length = t2.length := by omega
      rw [hl] at h ht
      have hbb : b = b2 := by
        interval_cases b <;> interval_cases b2 <;> omega
      subst hbb
      have : binary_to_int t = binary_to_int t2 := by omega
      rw [ih (by omega) (fun x hx => hc x (List.mem_cons_of_mem _ hx))
        (fun x hx => hd x (List.mem_cons_of_mem _ hx)) this]

theorem int_to_binary_binary_to_int {c : List ℕ}
    (hc : ∀ b ∈ c, b ≤ 1) (hne : c ≠ []) :
    int_to_binary (binary_to_int c) c.length = c := by
  have hlt := binary_to_int_lt c hc
  have hL : 1 ≤ c.length := by
    cases c with
    | nil => simp at hne
    | cons a t => simp
  refine binary_to_int_injOn (int_to_binary_length hlt hL) ?_ hc ?_
  · exact int_to_binary_bits _ _
  · rw [binary_to_int_int_to_binary hlt]

/-! ### Byte/bit regrouping

Several functions regroup a bit list into bytes, keeping only complete
groups of 8 (`if len(byte) == 8`), or expand each byte of a byte sequence
into 8 MSB-first bits. -/

/-- Regroup a bit list into bytes, 8 bits per byte MSB-first, dropping a
trailing incomplete group (mirrors the `for i in range(0, len, 8)` loops of
`binary_to_text` and `image_to_z_with_header`). -/
def bitsToBytes : List ℕ → List ℕ
  | b0 :: b1 :: b2 :: b3 :: b4 :: b5 :: b6 :: b7 :: rest =>
      binary_to_int [b0, b1, b2, b3, b4, b5, b6, b7] :: bitsToBytes rest
  | _ => []

/-- Expand each byte into its 8 MSB-first bits (mirrors the
`format(byte, '08b')` loops). -/
def bytesToBits (bytes : List ℕ) : List ℕ :=
  (bytes.map (fun b => int_to_binary b 8)).flatten

theorem bitsToBytes_chunk (c rest : List ℕ) (hc : c.length = 8) :
    bitsToBytes (c ++ rest) = binary_to_int c :: bitsToBytes rest := by
  match c, hc with
  | [b0, b1, b2, b3, b4, b5, b6, b7], _ => rfl

theorem bitsToBytes_bytesToBits {bs : List ℕ} (h : ∀ b ∈ bs, b < 256) :
    bitsToBytes (bytesToBits bs) = bs := by
  induction bs with
  | nil => rfl
  | cons b t ih =>
    have hb : b < 256 := h b (List.mem_cons_self ..)
    have hlen : (int_to_binary b 8).length = 8 :=
      int_to_binary_length (by omega) (by omega)
    rw [bytesToBits, List.map_cons, List.flatten_cons, bitsToBytes_chunk _ _ hlen,
      binary_to_int_int_to_binary (by omega)]
    have := ih (fun x hx => h x (List.mem_cons_of_mem _ hx))
    rw [bytesToBits] at this
    rw [this]

theorem bytesToBits_bitsToBytes {l : List ℕ} (hdvd : l.length % 8 = 0)
    (hl : ∀ b ∈ l, b ≤ 1) :
    bytesToBits (bitsToBytes l) = l := by
  induction l using bitsToBytes.induct with
  | case1 b0 b1 b2 b3 b4 b5 b6 b7 rest ih =>
    have hc : ∀ b ∈ [b0, b1, b2, b3, b4, b5, b6, b7], b ≤ 1 := by
      intro b hb
      apply hl
      simp only [List.mem_cons] at hb ⊢
      tauto
    have hrest : ∀ b ∈ rest, b ≤ 1 := by
      intro b hb
      apply hl
      simp only [List.mem_cons]
      tauto
    have hrlen : rest.length % 8 = 0 := by
      simp only [List.length_cons] at hdvd
      omega
    show bytesToBits (binary_to_int [b0, b1, b2, b3, b4, b5, b6, b7] ::
        bitsToBytes rest) = _
    rw [bytesToBits, List.map_cons, List.flatten_cons]
    have heq : int_to_binary (binary_to_int [b0, b1, b2, b3, b4, b5, b6, b7]) 8 =
        [b0, b1, b2, b3, b4, b5, b6, b7] := by
      have := int_to_binary_binary_to_int hc (by simp)
      simpa using this
    rw [heq]
    have := ih hrlen hrest
    rw [bytesToBits] at this
    rw [this]
    rfl
  | case2 l hform =>
    cases l with
    | nil => rfl
    | cons a t =>
      exfalso
      rcases t with _ | ⟨a1, t⟩
      · simp at hdvd
      rcases t with _ | ⟨a2, t⟩
      · simp at hdvd
      rcases t with _ | ⟨a3, t⟩
      · simp at hdvd
      rcases t with _ | ⟨a4, t⟩
      · simp at hdvd
      rcases t with _ | ⟨a5, t⟩
      · simp at hdvd
      rcases t with _ | ⟨a6, t⟩
      · simp at hdvd
      rcases t with _ | ⟨a7, t⟩
      · simp at hdvd
      exact hform a a1 a2 a3 a4 a5 a6 a7 t rfl

theorem bytesToBits_bits (bs : List ℕ) : ∀ b ∈ bytesToBits bs, b ≤ 1 := by
  intro b hb
  rw [bytesToBits, List.mem_flatten] at hb
  obtain ⟨l, hl, hbl⟩ := hb
  rw [List.mem_map] at hl
  obtain ⟨x, _, rfl⟩ := hl
  exact int_to_binary_bits x 8 b hbl

theorem bytesToBits_length (bs : List ℕ) (h : ∀ b ∈ bs, b < 256) :
    (bytesToBits bs).length = 8 * bs.length := by
  induction bs with
  | nil => rfl
  | cons b t ih =>
    rw [bytesToBits, List.map_cons, List.flatten_cons, List.length_append]
    rw [int_to_binary_length (show b < 2 ^ 8 by have := h b (List.mem_cons_self ..); omega)
      (by omega)]
    rw [bytesToBits] at ih
    rw [ih (fun x hx => h x (List.mem_cons_of_mem _ hx))]
    simp [List.length_cons]
    ring

/-- Extracting the j-th 8-bit chunk of a byte expansion. -/
theorem bytesToBits_extract (bs : List ℕ) (h : ∀ b ∈ bs, b < 256) (j : ℕ)
    (hj : j < bs.length) :
    ((bytesToBits bs).drop (8 * j)).take 8 = int_to_binary (bs.getD j 0) 8 := by
  induction bs generalizing j with
  | nil => simp at hj
  | cons b t ih =>
    have hb : b < 256 := h b (List.mem_cons_self ..)
    have hlen : (int_to_binary b 8).length = 8 :=
      int_to_binary_length (by omega) (by omega)
    rw [bytesToBits, List.map_cons, List.flatten_cons]
    cases j with
    | zero =>
      simp only [Nat.mul_zero, List.drop_zero, List.getD_cons_zero]
      rw [List.take_append_of_le_length (by omega)]
      exact List.take_of_length_le (by omega)
    | succ n =>
      have h8 : 8 * (n + 1) = (int_to_binary b 8).length + 8 * n := by omega
      rw [h8, List.drop_append, List.getD_cons_succ]
      have := ih (fun x hx => h x (List.mem_cons_of_mem _ hx)) n (by simpa using hj)
      rw [bytesToBits] at this
      exact this

/-! ## mapping.py -/

/-- Forward mapping table `(M, MSB) -> Z`.  The Python dict lookup raises
`KeyError` outside `{0,1} x {0,1}`; every call site stays inside the table,
and the catch-all branch is never reached there. -/
def map_to_z (secret_bit msb : ℕ) : ℕ :=
  match secret_bit, msb with
  | 0, 0 => 1
  | 0, 1 => 0
  | 1, 0 => 0
  | 1, 1 => 1
  | _, _ => 0

/-- Reverse mapping table `(Z, MSB) -> M`. -/
def map_from_z (z_bit msb : ℕ) : ℕ :=
  match z_bit, msb with
  | 1, 0 => 0
  | 0, 0 => 1
  | 1, 1 => 1
  | 0, 1 => 0
  | _, _ => 0

theorem map_from_z_map_to_z {m msb : ℕ} (hm : m ≤ 1) (hmsb : msb ≤ 1) :
    map_from_z (map_to_z m msb) msb = m := by
  interval_cases m <;> interval_cases msb <;> rfl

theorem map_to_z_le_one (m msb : ℕ) : map_to_z m msb ≤ 1 := by
  unfold map_to_z
  rcases m with _ | _ | m <;> rcases msb with _ | _ | msb <;> simp

theorem map_from_z_le_one (z msb : ℕ) : map_from_z z msb ≤ 1 := by
  unfold map_from_z
  rcases z with _ | _ | z <;> rcases msb with _ | _ | msb <;> simp

/-! ## Correspondent keys

`contact_key` is an opaque string.  The code consumes it only through
(a) the chained SHA-256 digests `sha256(key), sha256(sha256(key)), ...`
used by the XOR keystream, and (b) the sequence of bounded draws made by
`numpy.random.default_rng(seed).shuffle` (one draw in `[0, i]` per
Fisher-Yates step `i`).  Both are deterministic functions of the string, so
a key is modelled as exactly this data; `None` and the empty string (falsy
in Python) are `none`. -/

structure KeyData where
  /-- the n-th digest of the SHA-256 hash chain; each digest is 32 bytes. -/
  chain : ℕ → Fin 32 → Fin 256
  /-- the shuffle draw consumed at Fisher-Yates step `i` (reduced mod `i+1`,
  matching a bounded integer draw in `[0, i]`). -/
  draws : ℕ → ℕ

/-! ## permutation.py -/

/-- Index image of the swap `x[a], x[b] = x[b], x[a]`. -/
def swapIdx (a b t : ℕ) : ℕ :=
  if t = a then b else if t = b then a else t

/-- The list `l` with positions `a` and `b` exchanged. -/
def listSwap (l : List ℕ) (a b : ℕ) : List ℕ :=
  (List.range l.length).map (fun t => l.getD (swapIdx a b t) 0)

/-- Descending Fisher-Yates sweep: steps `i, i-1, ..., 1`, at each step
swapping position `i` with a drawn position `j ≤ i` (the loop of
`numpy`'s `Generator.shuffle`). -/
def fyGo (draws : ℕ → ℕ) : List ℕ → ℕ → List ℕ
  | l, 0 => l
  | l, i + 1 => fyGo draws (listSwap l (i + 1) (draws (i + 1) % (i + 2))) i

/-- `rng.shuffle(perm_order)`. -/
def fyShuffle (draws : ℕ → ℕ) (l : List ℕ) : List ℕ :=
  fyGo draws l (l.length - 1)

/-- Stable comparison used to model `np.argsort`: order indices by value,
breaking ties by original position. -/
def argLe (v : List ℚ) (i j : ℕ) : Prop :=
  v.getD i 0 < v.getD j 0 ∨ (v.getD i 0 = v.getD j 0 ∧ i ≤ j)

instance (v : List ℚ) : DecidableRel (argLe v) := fun i j => by
  unfold argLe; infer_instance

instance (v : List ℚ) : IsTotal ℕ (argLe v) where
  total i j := by
    unfold argLe
    rcases lt_trichotomy (v.getD i 0) (v.getD j 0) with h | h | h
    · exact Or.inl (Or.inl h)
    · rcases Nat.le_total i j with hij | hij
      · exact Or.inl (Or.inr ⟨h, hij⟩)
      · exact Or.inr (Or.inr ⟨h.symm, hij⟩)
    · exact Or.inr (Or.inl h)

instance (v : List ℚ) : IsTrans ℕ (argLe v) where
  trans i j k hij hjk := by
    unfold argLe at *
    rcases hij with h1 | ⟨h1, h1b⟩ <;> rcases hjk with h2 | ⟨h2, h2b⟩
    · exact Or.inl (h1.trans h2)
    · exact Or.inl (h2 ▸ h1)
    · exact Or.inl (h1 ▸ h2)
    · exact Or.inr ⟨h1.trans h2, h1b.trans h2b⟩

instance (v : List ℚ) : IsAntisymm ℕ (argLe v) where
  antisymm i j hij hji := by
    unfold argLe at *
    rcases hij with h1 | ⟨h1, h1b⟩ <;> rcases hji with h2 | ⟨h2, h2b⟩ <;>
      first
        | exact absurd (h1.trans h2) (lt_irrefl _)
        | exact absurd h1 (by rw [h2]; exact lt_irrefl _)
        | exact absurd h2 (by rw [h1]; exact lt_irrefl _)
        | omega

/-- Stable argsort of a value list (model of `np.argsort`, which runs a
stable insertion sort on arrays this small). -/
def argsortIdx (v : List ℚ) : List ℕ :=
  List.insertionSort (argLe v) (List.range v.length)

/-- A block as passed to `generate_Q_from_block`: a 2-D grayscale array or a
3-D colour array. -/
inductive BlockData where
  | gray (pix : ℕ → ℕ → ℕ)
  | color (pix : ℕ → ℕ → ℕ → ℕ)

/-- First row of the block, colour collapsed by the standard luminance
weights (kept as exact floats here: `astype(np.float64)`). -/
def firstRowVals : BlockData → List ℚ
  | .gray pix => (List.range 8).map (fun c => (pix 0 c : ℚ))
  | .color pix => (List.range 8).map (fun c =>
      (0.299 : ℚ) * pix 0 c 0 + (0.587 : ℚ) * pix 0 c 1 + (0.114 : ℚ) * pix 0 c 2)

/-- The keyless part of `generate_Q_from_block`:
`Q = (np.argsort(first_row[:q_length]) + 1).tolist()`. -/
def baseQ (block : BlockData) (q_length : ℕ) : List ℕ :=
  (argsortIdx ((firstRowVals block).take q_length)).map (· + 1)

/-- `generate_Q_from_block(block, q_length, contact_key)`:
argsort the first `q_length` first-row values, add 1, then (with a key)
reorder by a seeded shuffle of the index positions:
`Q = [Q[i] for i in perm_order]`. -/
def generate_Q_from_block (block : BlockData) (q_length : ℕ)
    (contact_key : Option KeyData) : List ℕ :=
  match contact_key with
  | none => baseQ block q_length
  | some k =>
      (fyShuffle k.draws (List.range q_length)).map
        (fun i => (baseQ block q_length).getD i 0)

/-- `apply_permutation(values, Q)`: `[values[q-1] for q in Q]`.  The Python
length guard raises when `len(values) != len(Q)`; every call below passes
matching lengths. -/
def apply_permutation (values : List ℤ) (Q : List ℕ) : List ℤ :=
  Q.map (fun q => values.getD (q - 1) 0)

/-- `apply_Q_three_rounds(averages_21, Q)`: permute `[0:7]`, `[7:14]`,
`[14:21]` each by `Q` and concatenate. -/
def apply_Q_three_rounds (averages : List ℤ) (Q : List ℕ) : List ℤ :=
  apply_permutation (averages.take 7) Q ++
    apply_permutation ((averages.drop 7).take 7) Q ++
    apply_permutation ((averages.drop 14).take 7) Q

/-! ## image_processing.py -/

/-- Mean of the 2x2 sub-block at grid position `(a, c)` as an exact float
(`reshape(4,2,4,2).mean(axis=(1,3))`, whose entry `(a, c)` averages
`block[2a+i][2c+j]`). -/
def layer1F (b : ℕ → ℕ → ℕ) (a c : ℕ) : ℚ :=
  ((b (2 * a) (2 * c) + b (2 * a) (2 * c + 1) +
    b (2 * a + 1) (2 * c) + b (2 * a + 1) (2 * c + 1) : ℕ) : ℚ) / 4

/-- Mean of a 2x2 group of un-truncated layer-1 means
(`layer1.reshape(2,2,2,2).mean(axis=(1,3))`). -/
def layer2F (b : ℕ → ℕ → ℕ) (a c : ℕ) : ℚ :=
  (layer1F b (2 * a) (2 * c) + layer1F b (2 * a) (2 * c + 1) +
    layer1F b (2 * a + 1) (2 * c) + layer1F b (2 * a + 1) (2 * c + 1)) / 4

/-- Mean of the four un-truncated layer-2 means (`layer2.mean()`). -/
def layer3F (b : ℕ → ℕ → ℕ) : ℚ :=
  (layer2F b 0 0 + layer2F b 0 1 + layer2F b 1 0 + layer2F b 1 1) / 4

/-- `calculate_hierarchical_averages(block_8x8)`: the 21 outputs
`[layer1 x16 row-major, layer2 x4 row-major, layer3]`, each truncated to an
integer (`astype(int)` truncates toward zero; all values here are
nonnegative, so this is the floor). -/
def calculate_hierarchical_averages (b : ℕ → ℕ → ℕ) : List ℤ :=
  (List.range 16).map (fun t => ⌊layer1F b (t / 4) (t % 4)⌋) ++
    ((List.range 4).map (fun t => ⌊layer2F b (t / 2) (t % 2)⌋) ++ [⌊layer3F b⌋])

/-! ## XOR stream cipher (embed.py / extract.py) -/

/-- Bit `i` of the keystream: the digests of the SHA-256 chain are expanded
byte by byte into 8 MSB-first bits (`format(byte, '08b')`), 256 bits per
32-byte digest. -/
def keyBit (k : KeyData) (i : ℕ) : ℕ :=
  (k.chain (i / 256) ⟨i % 256 / 8, by omega⟩).val / 2 ^ (7 - i % 8) % 2

/-- `xor_encrypt(secret_bits, key)` from embed.py: no key means no
encryption; otherwise XOR with the keystream, truncated to the input length
(`[secret_bits[i] ^ key_bits[i] for i in range(len(secret_bits))]`). -/
def xor_encrypt (secret_bits : List ℕ) (key : Option KeyData) : List ℕ :=
  match key with
  | none => secret_bits
  | some k => (List.range secret_bits.length).map
      (fun i => secret_bits.getD i 0 ^^^ keyBit k i)

/-- `xor_decrypt(encrypted_bits, key)` from extract.py (same construction). -/
def xor_decrypt (encrypted_bits : List ℕ) (key : Option KeyData) : List ℕ :=
  match key with
  | none => encrypted_bits
  | some k => (List.range encrypted_bits.length).map
      (fun i => encrypted_bits.getD i 0 ^^^ keyBit k i)

/-! ### Permutation lemmas -/

theorem map_getD_range (l : List ℕ) :
    (List.range l.length).map (fun t => l.getD t 0) = l := by
  apply List.ext_getElem (by simp)
  intro i h1 h2
  simp only [List.getElem_map, List.getElem_range]
  rw [List.getD_eq_getElem l 0 h2]

theorem listSwap_length (l : List ℕ) (a b : ℕ) :
    (listSwap l a b).length = l.length := by
  simp [listSwap]

theorem swapIdx_involutive (a b t : ℕ) : swapIdx a b (swapIdx a b t) = t := by
  unfold swapIdx
  by_cases h1 : t = a <;> by_cases h2 : t = b <;> simp [h1, h2] <;>
    split <;> simp_all

theorem listSwap_perm (l : List ℕ) (a b : ℕ) (ha : a < l.length)
    (hb : b < l.length) : (listSwap l a b).Perm l := by
  have hmap : listSwap l a b =
      ((List.range l.length).map (swapIdx a b)).map (fun t => l.getD t 0) := by
    rw [List.map_map]
    rfl
  have hswap_lt : ∀ t, t < l.length → swapIdx a b t < l.length := by
    intro t ht
    unfold swapIdx
    split
    · exact hb
    · split
      · exact ha
      · exact ht
  have hperm : ((List.range l.length).map (swapIdx a b)).Perm (List.range l.length) := by
    rw [List.perm_ext_iff_of_nodup
      (List.Nodup.map (Function.LeftInverse.injective (swapIdx_involutive a b))
        (List.nodup_range _))
      (List.nodup_range _)]
    intro x
    simp only [List.mem_map, List.mem_range]
    constructor
    · rintro ⟨t, ht, rfl⟩
      exact hswap_lt t ht
    · intro hx
      exact ⟨swapIdx a b x, hswap_lt x hx, swapIdx_involutive a b x⟩
  rw [hmap]
  have h2 := hperm.map (fun t => l.getD t 0)
  rwa [map_getD_range] at h2

theorem fyGo_perm (draws : ℕ → ℕ) :
    ∀ (i : ℕ) (l : List ℕ), i < l.length → (fyGo draws l i).Perm l := by
  intro i
  induction i with
  | zero => intro l _; rfl
  | succ n ih =>
    intro l h
    rw [fyGo]
    have hj : draws (n + 1) % (n + 2) < l.length := by
      have : draws (n + 1) % (n + 2) < n + 2 := Nat.mod_lt _ (by omega)
      omega
    have hswap := listSwap_perm l (n + 1) (draws (n + 1) % (n + 2)) h hj
    have hlen : n < (listSwap l (n + 1) (draws (n + 1) % (n + 2))).length := by
      rw [listSwap_length]; omega
    exact (ih _ hlen).trans hswap

theorem fyShuffle_perm (draws : ℕ → ℕ) (l : List ℕ) :
    (fyShuffle draws l).Perm l := by
  unfold fyShuffle
  cases hl : l with
  | nil => simp [fyGo]
  | cons a t =>
    apply fyGo_perm
    simp

theorem argsortIdx_perm (v : List ℚ) :
    (argsortIdx v).Perm (List.range v.length) :=
  List.perm_insertionSort _ _

theorem argsortIdx_sorted (v : List ℚ) :
    List.Sorted (argLe v) (argsortIdx v) :=
  List.sorted_insertionSort _ _

theorem firstRowVals_length (block : BlockData) : (firstRowVals block).length = 8 := by
  cases block <;> simp [firstRowVals]

/-- With or without a key, `Q` at the fixed `Q_LENGTH = 7` is a permutation
of `[1, ..., 7] = range' 1 7`. -/
theorem generate_Q_perm (block : BlockData) (key : Option KeyData) :
    (generate_Q_from_block block 7 key).Perm (List.range' 1 7) := by
  have hfr : ((firstRowVals block).take 7).length = 7 := by
    rw [List.length_take, firstRowVals_length]
    rfl
  set fr := (firstRowVals block).take 7 with hfrdef
  have hbq : ∀ q, baseQ block q = (argsortIdx ((firstRowVals block).take q)).map (· + 1) :=
    fun q => rfl
  have hA : (argsortIdx fr).Perm (List.range 7) := by
    have := argsortIdx_perm fr
    rwa [hfr] at this
  have hQbase : ((argsortIdx fr).map (· + 1)).Perm (List.range' 1 7) := by
    have h1 : (List.range' 1 7) = (List.range 7).map (· + 1) := by
      rw [List.range'_eq_map_range]
      exact List.map_congr_left (fun x _ => by omega)
    rw [h1]
    exact hA.map _
  have hQlen : ((argsortIdx fr).map (· + 1)).length = 7 := by
    rw [List.length_map, argsortIdx, List.length_insertionSort, List.length_range, hfr]
  cases key with
  | none =>
    rw [generate_Q_from_block, hbq, ← hfrdef]
    exact hQbase
  | some k =>
    rw [generate_Q_from_block, hbq, ← hfrdef]
    have hsh : (fyShuffle k.draws (List.range 7)).Perm (List.range 7) :=
      fyShuffle_perm _ _
    have hmap := hsh.map (fun i => ((argsortIdx fr).map (· + 1)).getD i 0)
    have heq : (List.range 7).map (fun i => ((argsortIdx fr).map (· + 1)).getD i 0) =
        (argsortIdx fr).map (· + 1) := by
      have := map_getD_range ((argsortIdx fr).map (· + 1))
      rwa [hQlen] at this
    rw [heq] at hmap
    exact hmap.trans hQbase


/-! ## secret_encoding.py: text

Python strings are sequences of Unicode scalar values; `text.encode('utf-8')`
and `bytes.decode('utf-8', errors='ignore')` are modelled by an explicit
UTF-8 byte codec over codepoint lists.  On well-formed byte sequences the
decoder below agrees with CPython's; on malformed ones it skips the
offending lead byte (the precise resynchronisation of `errors='ignore'` on
malformed input is not needed by any claim). -/

/-- UTF-8 encoding of one Unicode scalar value. -/
def utf8EncodeChar (c : ℕ) : List ℕ :=
  if c < 0x80 then [c]
  else if c < 0x800 then [0xC0 + c / 64, 0x80 + c % 64]
  else if c < 0x10000 then
    [0xE0 + c / 4096, 0x80 + c / 64 % 64, 0x80 + c % 64]
  else
    [0xF0 + c / 262144, 0x80 + c / 4096 % 64, 0x80 + c / 64 % 64, 0x80 + c % 64]

/-- UTF-8 decoding of a byte list, skipping malformed lead bytes.
Continuation bytes are inspected through `getD` with the out-of-range
default 256, so a too-short tail simply fails the validity test. -/
def utf8DecodeIgnore : List ℕ → List ℕ
  | [] => []
  | b :: rest =>
    if b < 0x80 then b :: utf8DecodeIgnore rest
    else if 0xC2 ≤ b ∧ b < 0xE0 then
      if 0x80 ≤ rest.getD 0 256 ∧ rest.getD 0 256 < 0xC0 then
        ((b - 0xC0) * 64 + (rest.getD 0 256 - 0x80)) ::
          utf8DecodeIgnore (rest.drop 1)
      else utf8DecodeIgnore rest
    else if 0xE0 ≤ b ∧ b < 0xF0 then
      if ((b = 0xE0 ∧ 0xA0 ≤ rest.getD 0 256 ∧ rest.getD 0 256 < 0xC0) ∨
          (0xE1 ≤ b ∧ b ≤ 0xEC ∧ 0x80 ≤ rest.getD 0 256 ∧ rest.getD 0 256 < 0xC0) ∨
          (b = 0xED ∧ 0x80 ≤ rest.getD 0 256 ∧ rest.getD 0 256 < 0xA0) ∨
          (0xEE ≤ b ∧ 0x80 ≤ rest.getD 0 256 ∧ rest.getD 0 256 < 0xC0)) ∧
          0x80 ≤ rest.getD 1 256 ∧ rest.getD 1 256 < 0xC0 then
        ((b - 0xE0) * 4096 + (rest.getD 0 256 - 0x80) * 64 +
          (rest.getD 1 256 - 0x80)) :: utf8DecodeIgnore (rest.drop 2)
      else utf8DecodeIgnore rest
    else if 0xF0 ≤ b ∧ b < 0xF5 then
      if ((b = 0xF0 ∧ 0x90 ≤ rest.getD 0 256 ∧ rest.getD 0 256 < 0xC0) ∨
          (0xF1 ≤ b ∧ b ≤ 0xF3 ∧ 0x80 ≤ rest.getD 0 256 ∧ rest.getD 0 256 < 0xC0) ∨
          (b = 0xF4 ∧ 0x80 ≤ rest.getD 0 256 ∧ rest.getD 0 256 < 0x90)) ∧
          (0x80 ≤ rest.getD 1 256 ∧ rest.getD 1 256 < 0xC0) ∧
          (0x80 ≤ rest.getD 2 256 ∧ rest.getD 2 256 < 0xC0) then
        ((b - 0xF0) * 262144 + (rest.getD 0 256 - 0x80) * 4096 +
          (rest.getD 1 256 - 0x80) * 64 + (rest.getD 2 256 - 0x80)) ::
          utf8DecodeIgnore (rest.drop 3)
      else utf8DecodeIgnore rest
    else utf8DecodeIgnore rest
  termination_by l => l.length
  decreasing_by
    all_goals simp_wf
    all_goals omega

/-- A valid Unicode scalar value (what a Python `str` element can be). -/
def ValidScalar (c : ℕ) : Prop :=
  c < 0x110000 ∧ (c < 0xD800 ∨ 0xE000 ≤ c)

instance (c : ℕ) : Decidable (ValidScalar c) := by unfold ValidScalar; infer_instance

/-- `text_to_binary(text)`: UTF-8 bytes, each expanded to 8 MSB-first bits. -/
def text_to_binary (text : List ℕ) : List ℕ :=
  bytesToBits (text.map utf8EncodeChar).flatten

/-- `binary_to_text(binary)`: regroup complete bytes, UTF-8 decode with
`errors='ignore'`. -/
def binary_to_text (binary : List ℕ) : List ℕ :=
  utf8DecodeIgnore (bitsToBytes binary)

theorem utf8EncodeChar_lt {c : ℕ} (h1 : c < 0x110000) :
    ∀ b ∈ utf8EncodeChar c, b < 256 := by
  intro b hb
  unfold utf8EncodeChar at hb
  split at hb
  · simp at hb; omega
  · split at hb
    · simp at hb; omega
    · split at hb
      · simp at hb; omega
      · simp at hb; omega

set_option maxRecDepth 8000 in
theorem utf8DecodeIgnore_encode {c : ℕ} (hv : ValidScalar c) (tail : List ℕ) :
    utf8DecodeIgnore (utf8EncodeChar c ++ tail) = c :: utf8DecodeIgnore tail := by
  obtain ⟨h1, h2⟩ := hv
  by_cases hc1 : c < 0x80
  · rw [utf8EncodeChar, if_pos hc1]
    show utf8DecodeIgnore (c :: tail) = c :: utf8DecodeIgnore tail
    rw [utf8DecodeIgnore]
    rw [if_pos hc1]
  · by_cases hc2 : c < 0x800
    · rw [utf8EncodeChar, if_neg hc1, if_pos hc2]
      show utf8DecodeIgnore (_ :: _ :: tail) = _
      rw [utf8DecodeIgnore]
      simp only [List.getD_cons_zero, List.getD_cons_succ, List.drop_succ_cons,
        List.drop_zero]
      rw [if_neg (by omega), if_pos (by omega), if_pos (by omega)]
      congr 1
      omega
    · by_cases hc3 : c < 0x10000
      · rw [utf8EncodeChar, if_neg hc1, if_neg hc2, if_pos hc3]
        show utf8DecodeIgnore (_ :: _ :: _ :: tail) = _
        rw [utf8DecodeIgnore]
        simp only [List.getD_cons_zero, List.getD_cons_succ, List.drop_succ_cons,
          List.drop_zero]
        rw [if_neg (by omega), if_neg (by omega), if_pos (by omega), if_pos (by omega)]
        congr 1
        omega
      · rw [utf8EncodeChar, if_neg hc1, if_neg hc2, if_neg hc3]
        show utf8DecodeIgnore (_ :: _ :: _ :: _ :: tail) = _
        rw [utf8DecodeIgnore]
        simp only [List.getD_cons_zero, List.getD_cons_succ, List.drop_succ_cons,
          List.drop_zero]
        rw [if_neg (by omega), if_neg (by omega), if_neg (by omega), if_pos (by omega),
          if_pos (by omega)]
        congr 1
        omega

theorem binary_to_text_text_to_binary {cps : List ℕ}
    (h : ∀ c ∈ cps, ValidScalar c) :
    binary_to_text (text_to_binary cps) = cps := by
  rw [binary_to_text, text_to_binary, bitsToBytes_bytesToBits]
  · induction cps with
    | nil =>
      show utf8DecodeIgnore [] = []
      rw [utf8DecodeIgnore]
    | cons c t ih =>
      rw [List.map_cons, List.flatten_cons,
        utf8DecodeIgnore_encode (h c (List.mem_cons_self ..))]
      rw [ih (fun x hx => h x (List.mem_cons_of_mem _ hx))]
  · intro b hb
    rw [List.mem_flatten] at hb
    obtain ⟨l, hl, hbl⟩ := hb
    rw [List.mem_map] at hl
    obtain ⟨x, hx, rfl⟩ := hl
    exact utf8EncodeChar_lt (h x hx).1 b hbl

/-! ## secret_encoding.py: images -/

/-- Canonical PIL colour modes after the normalisation at the top of
`image_to_binary` (`'1'/'LA'` become `'L'`, `'P'/'CMYK'/...` become
`'RGB'`/`'RGBA'`). -/
inductive CMode where
  | L
  | RGB
  | RGBA
deriving DecidableEq, Repr

def CMode.channels : CMode → ℕ
  | .L => 1
  | .RGB => 3
  | .RGBA => 4

/-- `is_color = mode not in ['L', '1', 'LA']` after normalisation. -/
def CMode.isColorBit : CMode → ℕ
  | .L => 0
  | .RGB => 1
  | .RGBA => 1

def CMode.hasAlphaBit : CMode → ℕ
  | .RGBA => 1
  | .L => 0
  | .RGB => 0

/-- A secret image: PIL image data after mode normalisation.  `pixels` is
the flattened channel list, pixels row-major, channels in order R,G,B,(A)
(a single luminance channel for mode `L`). -/
structure SecretImage where
  width : ℕ
  height : ℕ
  mode : CMode
  pixels : List ℕ
deriving DecidableEq, Repr

/-- What PIL guarantees about any real image: one byte per channel per
pixel, values 0-255. -/
def SecretImage.Wf (im : SecretImage) : Prop :=
  im.pixels.length = im.width * im.height * im.mode.channels ∧
    ∀ p ∈ im.pixels, p < 256

/-- `image_to_binary(image)`: 34-bit header
`[width 16][height 16][is_color 1][has_alpha 1]` then the pixel channel
bytes, 8 MSB-first bits each. -/
def image_to_binary (im : SecretImage) : List ℕ :=
  int_to_binary im.width 16 ++ int_to_binary im.height 16 ++
    [im.mode.isColorBit, im.mode.hasAlphaBit] ++ bytesToBits im.pixels

/-- The grayscale pixel read loop of `binary_to_image`
(`for i in range(w*h): if idx + (i+1)*8 <= len(binary): ...` with
`idx = 34`). -/
def readGrayPixels (binary : List ℕ) (count : ℕ) : List ℕ :=
  (List.range count).filterMap (fun i =>
    if 34 + (i + 1) * 8 ≤ binary.length then
      some (binary_to_int ((binary.drop (34 + i * 8)).take 8))
    else none)

/-- The colour pixel read loop of `binary_to_image`: per pixel, read an
RGBA 4-tuple when `has_alpha` holds and 32 bits remain at `idx`, else an
RGB 3-tuple when 24 bits remain, else skip; `idx` advances by the bits
consumed. -/
def readColorPixels (binary : List ℕ) (hasAlpha : Bool) :
    ℕ → ℕ → List (List ℕ)
  | 0, _ => []
  | count + 1, idx =>
    if hasAlpha = true ∧ idx + 32 ≤ binary.length then
      ((List.range 4).map (fun t => binary_to_int ((binary.drop (idx + t * 8)).take 8))) ::
        readColorPixels binary hasAlpha count (idx + 32)
    else if idx + 24 ≤ binary.length then
      ((List.range 3).map (fun t => binary_to_int ((binary.drop (idx + t * 8)).take 8))) ::
        readColorPixels binary hasAlpha count (idx + 24)
    else readColorPixels binary hasAlpha count idx

/-- `binary_to_image(binary)`.  The Python function wraps its whole body in
`try/except` and returns `(None, None, None)` on any exception; `none`
models that outcome.  Exceptions arise from `int('', 2)` on an empty input,
from the `binary[32]`/`binary[33]` header reads on inputs shorter than 34
bits, and from `putdata` receiving an RGB 3-tuple for an RGBA image (the
3-tuple fallback inside the 4-tuple loop near the end of the data).
Reconstructed images keep PIL's zero default for pixels the data did not
cover (`putdata(pixels[:w*h])` on a fresh black image). -/
def binary_to_image (binary : List ℕ) : Option SecretImage :=
  if binary = [] then none
  else if binary.length ≤ 33 then none
  else
    let w := binary_to_int (binary.take 16)
    let h := binary_to_int ((binary.drop 16).take 16)
    let isC := binary.getD 32 0
    let hasA := binary.getD 33 0
    if isC ≠ 0 then
      let tuples := readColorPixels binary (hasA != 0) (w * h) 34
      if hasA ≠ 0 ∧ tuples.any (fun t => t.length == 3) then none
      else
        some ⟨w, h, if hasA ≠ 0 then CMode.RGBA else CMode.RGB,
          tuples.flatten ++
            List.replicate ((w * h - tuples.length) * (if hasA ≠ 0 then 4 else 3)) 0⟩
    else
      let px := readGrayPixels binary (w * h)
      some ⟨w, h, CMode.L, px ++ List.replicate (w * h - px.length) 0⟩

/-! ### Image serialization round-trip -/

theorem take_append_len {α : Type} {l₁ l₂ : List α} {n : ℕ} (h : l₁.length = n) :
    (l₁ ++ l₂).take n = l₁ := by
  subst h
  rw [List.take_append_of_le_length le_rfl]
  exact List.take_of_length_le le_rfl

theorem drop_append_len {α : Type} {l₁ l₂ : List α} {n : ℕ} (h : l₁.length = n) :
    (l₁ ++ l₂).drop n = l₂ := by
  subst h
  have := @List.drop_append _ l₁ l₂ 0
  simpa using this

theorem getD_append_len {α : Type} {l₁ l₂ : List α} {n : ℕ} (h : l₁.length = n)
    (k : ℕ) (d : α) : (l₁ ++ l₂).getD (n + k) d = l₂.getD k d := by
  induction l₁ generalizing n with
  | nil => simp at h; subst h; simp
  | cons a t ih =>
    cases n with
    | zero => simp at h
    | succ m =>
      have hm : t.length = m := by simpa using h
      have key : (a :: (t ++ l₂)).getD ((m + k) + 1) d = l₂.getD k d := by
        rw [List.getD_cons_succ]
        exact ih hm
      have harith : m + 1 + k = (m + k) + 1 := by omega
      rw [List.cons_append, harith]
      exact key

theorem image_to_binary_parts (im : SecretImage) :
    image_to_binary im =
      (int_to_binary im.width 16 ++ int_to_binary im.height 16 ++
        [im.mode.isColorBit, im.mode.hasAlphaBit]) ++ bytesToBits im.pixels := by
  rw [image_to_binary]

theorem image_to_binary_header_len (im : SecretImage)
    (hw : im.width < 65536) (hh : im.height < 65536) :
    (int_to_binary im.width 16 ++ int_to_binary im.height 16 ++
      [im.mode.isColorBit, im.mode.hasAlphaBit]).length = 34 := by
  simp [List.length_append,
    int_to_binary_length (show im.width < 2 ^ 16 by omega) (by omega),
    int_to_binary_length (show im.height < 2 ^ 16 by omega) (by omega)]

theorem readGrayPixels_full (binary P : List ℕ)
    (hbin : binary.drop 34 = bytesToBits P)
    (hlen : binary.length = 34 + 8 * P.length)
    (hP : ∀ p ∈ P, p < 256) :
    readGrayPixels binary P.length = P := by
  rw [readGrayPixels]
  rw [@List.filterMap_congr _ _ _ (fun i =>
    some (binary_to_int ((binary.drop (34 + i * 8)).take 8))) _ ?_]
  · rw [show (fun i => some (binary_to_int ((binary.drop (34 + i * 8)).take 8))) =
      some ∘ (fun i => binary_to_int ((binary.drop (34 + i * 8)).take 8)) from rfl]
    rw [List.filterMap_eq_map]
    have hval : ∀ i < P.length,
        binary_to_int ((binary.drop (34 + i * 8)).take 8) = P.getD i 0 := by
      intro i hi
      have hdd : binary.drop (34 + i * 8) = (bytesToBits P).drop (8 * i) := by
        rw [show 34 + i * 8 = 34 + 8 * i by ring, ← List.drop_drop, hbin]
      rw [hdd, bytesToBits_extract P hP i hi]
      have hPi : P.getD i 0 < 256 := by
        rw [List.getD_eq_getElem P 0 hi]
        exact hP _ (List.getElem_mem hi)
      exact binary_to_int_int_to_binary (by omega)
    have : (List.range P.length).map
        (fun i => binary_to_int ((binary.drop (34 + i * 8)).take 8)) =
        (List.range P.length).map (fun i => P.getD i 0) := by
      apply List.map_congr_left
      intro i hi
      rw [List.mem_range] at hi
      exact hval i hi
    rw [this, map_getD_range]
  · intro i hi
    rw [List.mem_range] at hi
    rw [if_pos (by omega)]

theorem map_range_succ_left {α : Type} (n : ℕ) (g : ℕ → α) :
    (List.range (1 + n)).map g = g 0 :: (List.range n).map (fun j => g (j + 1)) := by
  rw [show 1 + n = n + 1 by omega, List.range_succ_eq_map, List.map_cons,
    List.map_map]
  rfl

theorem readColorPixels_rgba (binary P : List ℕ)
    (hbin : binary.drop 34 = bytesToBits P)
    (hlen : binary.length = 34 + 8 * P.length)
    (hP : ∀ p ∈ P, p < 256) :
    ∀ (m k : ℕ), P.length = (k + m) * 4 →
      readColorPixels binary true m (34 + 32 * k) =
        (List.range m).map (fun i =>
          (List.range 4).map (fun t => P.getD ((k + i) * 4 + t) 0)) := by
  intro m
  induction m with
  | zero => intro k _; rfl
  | succ n ih =>
    intro k hk
    rw [readColorPixels]
    rw [if_pos (show true = true ∧ 34 + 32 * k + 32 ≤ binary.length from
      ⟨rfl, by omega⟩)]
    have hrec : readColorPixels binary true n (34 + 32 * k + 32) =
        (List.range n).map (fun i =>
          (List.range 4).map (fun t => P.getD ((k + 1 + i) * 4 + t) 0)) := by
      have := ih (k + 1) (by omega)
      rw [show 34 + 32 * (k + 1) = 34 + 32 * k + 32 by ring] at this
      exact this
    have hval : ∀ t < 4,
        binary_to_int ((binary.drop (34 + 32 * k + t * 8)).take 8) =
          P.getD (k * 4 + t) 0 := by
      intro t ht
      have hdd : binary.drop (34 + 32 * k + t * 8) =
          (bytesToBits P).drop (8 * (k * 4 + t)) := by
        rw [show 34 + 32 * k + t * 8 = 34 + (8 * (k * 4 + t)) by ring,
          ← List.drop_drop, hbin]
      rw [hdd, bytesToBits_extract P hP _ (by omega)]
      have hPi : P.getD (k * 4 + t) 0 < 256 := by
        rw [List.getD_eq_getElem P 0 (by omega)]
        exact hP _ (List.getElem_mem _)
      exact binary_to_int_int_to_binary (by omega)
    rw [hrec, show n + 1 = 1 + n by omega, map_range_succ_left n
      (fun i => (List.range 4).map (fun t => P.getD ((k + i) * 4 + t) 0))]
    congr 1
    · apply List.map_congr_left
      intro t htm
      rw [List.mem_range] at htm
      rw [hval t htm]
      congr 1
    · apply List.map_congr_left
      intro i _
      have harith : k + 1 + i = k + (i + 1) := by omega
      rw [harith]

theorem readColorPixels_rgb (binary P : List ℕ)
    (hbin : binary.drop 34 = bytesToBits P)
    (hlen : binary.length = 34 + 8 * P.length)
    (hP : ∀ p ∈ P, p < 256) :
    ∀ (m k : ℕ), P.length = (k + m) * 3 →
      readColorPixels binary false m (34 + 24 * k) =
        (List.range m).map (fun i =>
          (List.range 3).map (fun t => P.getD ((k + i) * 3 + t) 0)) := by
  intro m
  induction m with
  | zero => intro k _; rfl
  | succ n ih =>
    intro k hk
    rw [readColorPixels]
    rw [if_neg (show ¬(false = true ∧ 34 + 24 * k + 32 ≤ binary.length) by simp)]
    rw [if_pos (show 34 + 24 * k + 24 ≤ binary.length by omega)]
    have hrec : readColorPixels binary false n (34 + 24 * k + 24) =
        (List.range n).map (fun i =>
          (List.range 3).map (fun t => P.getD ((k + 1 + i) * 3 + t) 0)) := by
      have := ih (k + 1) (by omega)
      rw [show 34 + 24 * (k + 1) = 34 + 24 * k + 24 by ring] at this
      exact this
    have hval : ∀ t < 3,
        binary_to_int ((binary.drop (34 + 24 * k + t * 8)).take 8) =
          P.getD (k * 3 + t) 0 := by
      intro t ht
      have hdd : binary.drop (34 + 24 * k + t * 8) =
          (bytesToBits P).drop (8 * (k * 3 + t)) := by
        rw [show 34 + 24 * k + t * 8 = 34 + (8 * (k * 3 + t)) by ring,
          ← List.drop_drop, hbin]
      rw [hdd, bytesToBits_extract P hP _ (by omega)]
      have hPi : P.getD (k * 3 + t) 0 < 256 := by
        rw [List.getD_eq_getElem P 0 (by omega)]
        exact hP _ (List.getElem_mem _)
      exact binary_to_int_int_to_binary (by omega)
    rw [hrec, show n + 1 = 1 + n by omega, map_range_succ_left n
      (fun i => (List.range 3).map (fun t => P.getD ((k + i) * 3 + t) 0))]
    congr 1
    · apply List.map_congr_left
      intro t htm
      rw [List.mem_range] at htm
      rw [hval t htm]
      congr 1
    · apply List.map_congr_left
      intro i _
      have harith : k + 1 + i = k + (i + 1) := by omega
      rw [harith]

/-- Flattening the per-pixel tuples recovers the flattened channel list. -/
theorem flatten_tuples_eq (P : List ℕ) (ch n : ℕ) (hch : 0 < ch)
    (hlen : P.length = n * ch) :
    ((List.range n).map (fun i =>
      (List.range ch).map (fun t => P.getD (i * ch + t) 0))).flatten = P := by
  induction n generalizing P with
  | zero =>
    rw [Nat.zero_mul, List.length_eq_zero] at hlen
    subst hlen
    rfl
  | succ m ih =>
    rw [List.range_succ_eq_map, List.map_cons, List.flatten_cons, List.map_map]
    have hsplit : P = P.take ch ++ P.drop ch := (List.take_append_drop ch P).symm
    have htk : (P.take ch).length = ch := by
      rw [List.length_take]
      have : ch ≤ P.length := by
        calc ch = 1 * ch := by ring
        _ ≤ (m + 1) * ch := by
              apply Nat.mul_le_mul_right
              omega
        _ = P.length := hlen.symm
      omega
    have hchP : ch ≤ P.length := by
      rw [hlen]
      calc ch = 1 * ch := by ring
      _ ≤ (m + 1) * ch := by
            apply Nat.mul_le_mul_right
            omega
    have hfirst : (List.range ch).map (fun t => P.getD (0 * ch + t) 0) = P.take ch := by
      apply List.ext_getElem (by simp [htk])
      intro i h1 h2
      simp only [List.getElem_map, List.getElem_range, Nat.zero_mul, Nat.zero_add]
      have hich : i < ch := by simpa using h1
      rw [List.getElem_take, List.getD_eq_getElem P 0 (by omega)]
    have hrest : ((List.range m).map ((fun i =>
        (List.range ch).map (fun t => P.getD (i * ch + t) 0)) ∘ Nat.succ)).flatten =
        P.drop ch := by
      have hdlen : (P.drop ch).length = m * ch := by
        rw [List.length_drop, hlen]
        ring_nf
        omega
      have := ih (P.drop ch) hdlen
      rw [← this]
      congr 1
      apply List.map_congr_left
      intro i _
      simp only [Function.comp]
      apply List.map_congr_left
      intro t htm
      rw [List.mem_range] at htm
      have hidx : (P.drop ch).getD (i * ch + t) 0 = P.getD (ch + (i * ch + t)) 0 := by
        by_cases hin : i * ch + t < (P.drop ch).length
        · rw [List.getD_eq_getElem _ 0 hin, List.getElem_drop,
            List.getD_eq_getElem P 0 (by rw [List.length_drop] at hin; omega)]
        · rw [List.getD_eq_default _ 0 (by omega), List.getD_eq_default P 0 (by
            rw [List.length_drop] at hin; omega)]
      have harith : ch + (i * ch + t) = Nat.succ i * ch + t := by
        rw [Nat.succ_mul]
        omega
      rw [hidx, harith]
    rw [hfirst, hrest]
    exact List.take_append_drop ch P

theorem binary_to_image_image_to_binary {im : SecretImage} (hwf : im.Wf)
    (hw : im.width < 65536) (hh : im.height < 65536) :
    binary_to_image (image_to_binary im) = some im := by
  obtain ⟨hplen, hpx⟩ := hwf
  have hAlen : (int_to_binary im.width 16).length = 16 :=
    int_to_binary_length (by omega) (by omega)
  have hBlen : (int_to_binary im.height 16).length = 16 :=
    int_to_binary_length (by omega) (by omega)
  have hHlen := image_to_binary_header_len im hw hh
  have hbinform := image_to_binary_parts im
  have hPlen : (bytesToBits im.pixels).length = 8 * im.pixels.length :=
    bytesToBits_length _ hpx
  have hlen : (image_to_binary im).length = 34 + 8 * im.pixels.length := by
    rw [hbinform, List.length_append, hHlen, hPlen]
  have hdrop34 : (image_to_binary im).drop 34 = bytesToBits im.pixels := by
    rw [hbinform]
    exact drop_append_len hHlen
  have hassoc : image_to_binary im =
      int_to_binary im.width 16 ++ (int_to_binary im.height 16 ++
        ([im.mode.isColorBit, im.mode.hasAlphaBit] ++ bytesToBits im.pixels)) := by
    rw [hbinform]
    simp [List.append_assoc]
  have hw_eq : binary_to_int ((image_to_binary im).take 16) = im.width := by
    rw [hassoc, take_append_len hAlen]
    exact binary_to_int_int_to_binary (by omega)
  have hh_eq : binary_to_int (((image_to_binary im).drop 16).take 16) = im.height := by
    rw [hassoc, drop_append_len hAlen, take_append_len hBlen]
    exact binary_to_int_int_to_binary (by omega)
  have hABform : image_to_binary im =
      (int_to_binary im.width 16 ++ int_to_binary im.height 16) ++
        ([im.mode.isColorBit, im.mode.hasAlphaBit] ++ bytesToBits im.pixels) := by
    rw [hbinform]
    simp [List.append_assoc]
  have hABlen : (int_to_binary im.width 16 ++ int_to_binary im.height 16).length = 32 := by
    rw [List.length_append, hAlen, hBlen]
  have hc32 : (image_to_binary im).getD 32 0 = im.mode.isColorBit := by
    rw [hABform]
    have := @getD_append_len _
      (int_to_binary im.width 16 ++ int_to_binary im.height 16)
      ([im.mode.isColorBit, im.mode.hasAlphaBit] ++ bytesToBits im.pixels)
      32 hABlen 0 0
    simpa using this
  have ha33 : (image_to_binary im).getD 33 0 = im.mode.hasAlphaBit := by
    rw [hABform]
    have := @getD_append_len _
      (int_to_binary im.width 16 ++ int_to_binary im.height 16)
      ([im.mode.isColorBit, im.mode.hasAlphaBit] ++ bytesToBits im.pixels)
      32 hABlen 1 0
    simpa using this
  have hne : ¬(image_to_binary im = []) := by
    intro hX
    rw [hX] at hlen
    simp at hlen
    omega
  have hle33 : ¬((image_to_binary im).length ≤ 33) := by omega
  rw [binary_to_image.eq_def]
  rw [if_neg hne, if_neg hle33]
  simp only [hw_eq, hh_eq, hc32, ha33]
  rcases him : im.mode with _ | _ | _
  · -- grayscale
    rw [him] at hplen
    simp only [CMode.isColorBit, CMode.hasAlphaBit, CMode.channels] at *
    rw [if_neg (by simp)]
    have hcount : im.width * im.height = im.pixels.length := by
      rw [hplen]; ring
    rw [hcount, readGrayPixels_full _ _ hdrop34 hlen hpx, Nat.sub_self,
      List.replicate_zero, List.append_nil, ← him]
  · -- RGB
    rw [him] at hplen
    simp only [CMode.isColorBit, CMode.hasAlphaBit, CMode.channels] at *
    rw [if_pos (by omega)]
    have htup := readColorPixels_rgb _ _ hdrop34 hlen hpx
      (im.width * im.height) 0 (by rw [hplen]; ring)
    rw [show (34 : ℕ) + 24 * 0 = 34 by ring] at htup
    have htup2 : readColorPixels (image_to_binary im) ((0 : ℕ) != 0)
        (im.width * im.height) 34 =
        (List.range (im.width * im.height)).map (fun i =>
          (List.range 3).map (fun t => im.pixels.getD (i * 3 + t) 0)) := by
      rw [show ((0 : ℕ) != 0) = false from rfl, htup]
      apply List.map_congr_left
      intro i _
      apply List.map_congr_left
      intro t _
      have hidx : (0 + i) * 3 + t = i * 3 + t := by omega
      rw [hidx]
    rw [htup2]
    rw [if_neg (by simp)]
    have hflat := flatten_tuples_eq im.pixels 3 (im.width * im.height) (by omega)
      (by rw [hplen])
    rw [List.length_map, List.length_range]
    rw [hflat, Nat.sub_self, Nat.zero_mul, List.replicate_zero, List.append_nil]
    rw [if_neg (by simp), ← him]
  · -- RGBA
    rw [him] at hplen
    simp only [CMode.isColorBit, CMode.hasAlphaBit, CMode.channels] at *
    rw [if_pos (by omega)]
    have htup := readColorPixels_rgba _ _ hdrop34 hlen hpx
      (im.width * im.height) 0 (by rw [hplen]; ring)
    rw [show (34 : ℕ) + 32 * 0 = 34 by ring] at htup
    have htup2 : readColorPixels (image_to_binary im) ((1 : ℕ) != 0)
        (im.width * im.height) 34 =
        (List.range (im.width * im.height)).map (fun i =>
          (List.range 4).map (fun t => im.pixels.getD (i * 4 + t) 0)) := by
      rw [show ((1 : ℕ) != 0) = true from rfl, htup]
      apply List.map_congr_left
      intro i _
      apply List.map_congr_left
      intro t _
      have hidx : (0 + i) * 4 + t = i * 4 + t := by omega
      rw [hidx]
    rw [htup2]
    have hany : ((List.range (im.width * im.height)).map (fun i =>
        (List.range 4).map (fun t => im.pixels.getD (i * 4 + t) 0))).any
          (fun t => t.length == 3) = false := by
      rw [List.any_eq_false]
      intro t ht
      rw [List.mem_map] at ht
      obtain ⟨i, _, rfl⟩ := ht
      simp
    rw [if_neg (by
      intro hcon
      rw [hany] at hcon
      simp at hcon)]
    have hflat := flatten_tuples_eq im.pixels 4 (im.width * im.height) (by omega)
      (by rw [hplen])
    rw [List.length_map, List.length_range]
    rw [hflat, Nat.sub_self, Nat.zero_mul, List.replicate_zero, List.append_nil]
    rw [if_pos (by simp), ← him]

/-! ## image_encoding.py: carrier codec with header -/

structure CarrierImage where
  width : ℕ
  height : ℕ
  pixels : List ℕ
deriving DecidableEq, Repr

inductive CarrierErr where
  | tooSmall
  | invalidLength
deriving DecidableEq, Repr

/-- `z_to_image_with_header(z_bits, style_num, img_num, img_size)`:
72-bit header `[32 length][8 style][16 item][16 size]` + Z-code, padded
with zero bits to a byte boundary, packed 8 bits per pixel, laid out in
near-square dimensions (`int(math.sqrt(n))`, exact for these magnitudes,
is `Nat.sqrt`; `math.ceil(n / width)` is the ceiling division), with
zero-padded spare pixels.  Returns the image and the Z-code length. -/
def z_to_image_with_header (z_bits : List ℕ) (style_num img_num img_size : ℕ) :
    CarrierImage × ℕ :=
  let header_bits := int_to_binary z_bits.length 32 ++ int_to_binary style_num 8 ++
    int_to_binary img_num 16 ++ int_to_binary img_size 16
  let full_bits := header_bits ++ z_bits
  let padded := if full_bits.length % 8 = 0 then full_bits
    else full_bits ++ List.replicate (8 - full_bits.length % 8) 0
  let pixels := bitsToBytes padded
  let width := Nat.sqrt pixels.length
  let height := (pixels.length + width - 1) / width
  let pixelsPadded := pixels ++ List.replicate (width * height - pixels.length) 0
  (⟨width, height, pixelsPadded.take (width * height)⟩, z_bits.length)

/-- `image_to_z_with_header(image)`: expand every pixel to 8 bits, require
at least the 72-bit header, parse it, validate
`0 < z_length ≤ total - 72`, and slice the Z-code. -/
def image_to_z_with_header (image : CarrierImage) :
    Except CarrierErr (List ℕ × ℕ × ℕ × ℕ) :=
  let all_bits := bytesToBits image.pixels
  if all_bits.length < 72 then .error .tooSmall
  else
    let z_length := binary_to_int (all_bits.take 32)
    let style_num := binary_to_int ((all_bits.drop 32).take 8)
    let img_num := binary_to_int ((all_bits.drop 40).take 16)
    let img_size := binary_to_int ((all_bits.drop 56).take 16)
    if z_length = 0 ∨ all_bits.length - 72 < z_length then .error .invalidLength
    else .ok ((all_bits.drop 72).take z_length, style_num, img_num, img_size)

theorem int_to_binary_zero_eight : int_to_binary 0 8 = List.replicate 8 0 := by
  decide

theorem bytesToBits_replicate_zero (k : ℕ) :
    bytesToBits (List.replicate k 0) = List.replicate (8 * k) 0 := by
  induction k with
  | zero => rfl
  | succ n ih =>
    rw [List.replicate_succ, bytesToBits, List.map_cons, List.flatten_cons,
      int_to_binary_zero_eight]
    rw [bytesToBits] at ih
    rw [ih]
    rw [show 8 * (n + 1) = 8 + 8 * n by ring]
    rw [← List.replicate_add]

theorem bytesToBits_append (a b : List ℕ) :
    bytesToBits (a ++ b) = bytesToBits a ++ bytesToBits b := by
  rw [bytesToBits, bytesToBits, bytesToBits, List.map_append, List.flatten_append]

theorem bitsToBytes_length_dvd : ∀ {l : List ℕ}, l.length % 8 = 0 →
    8 * (bitsToBytes l).length = l.length := by
  intro l
  induction l using bitsToBytes.induct with
  | case1 b0 b1 b2 b3 b4 b5 b6 b7 rest ih =>
    intro hdvd
    rw [bitsToBytes]
    have hrlen : rest.length % 8 = 0 := by
      simp only [List.length_cons] at hdvd
      omega
    have hr := ih hrlen
    simp only [List.length_cons]
    omega
  | case2 l hform =>
    intro hdvd
    cases l with
    | nil => simp [bitsToBytes]
    | cons a t =>
      exfalso
      rcases t with _ | ⟨a1, t⟩
      · simp at hdvd
      rcases t with _ | ⟨a2, t⟩
      · simp at hdvd
      rcases t with _ | ⟨a3, t⟩
      · simp at hdvd
      rcases t with _ | ⟨a4, t⟩
      · simp at hdvd
      rcases t with _ | ⟨a5, t⟩
      · simp at hdvd
      rcases t with _ | ⟨a6, t⟩
      · simp at hdvd
      rcases t with _ | ⟨a7, t⟩
      · simp at hdvd
      exact hform a a1 a2 a3 a4 a5 a6 a7 t rfl

/-- Carrier round-trip: decoding the header-carrier image recovers the
Z-code and all three metadata fields. -/
theorem carrier_roundtrip_core (z : List ℕ) (style item size : ℕ)
    (hz0 : z ≠ []) (hzlen : z.length < 2 ^ 32) (hzbits : ∀ b ∈ z, b ≤ 1)
    (hstyle : style < 2 ^ 8) (hitem : item < 2 ^ 16) (hsize : size < 2 ^ 16) :
    image_to_z_with_header (z_to_image_with_header z style item size).1 =
      Except.ok (z, style, item, size) := by
  simp only [z_to_image_with_header]
  set header_bits := int_to_binary z.length 32 ++ int_to_binary style 8 ++
    int_to_binary item 16 ++ int_to_binary size 16 with hHdef
  have hL32 : (int_to_binary z.length 32).length = 32 :=
    int_to_binary_length hzlen (by omega)
  have hL8 : (int_to_binary style 8).length = 8 :=
    int_to_binary_length hstyle (by omega)
  have hL16a : (int_to_binary item 16).length = 16 :=
    int_to_binary_length hitem (by omega)
  have hL16b : (int_to_binary size 16).length = 16 :=
    int_to_binary_length hsize (by omega)
  have hHlen : header_bits.length = 72 := by
    rw [hHdef]
    simp [List.length_append, hL32, hL8, hL16a, hL16b]
  have hHbits : ∀ b ∈ header_bits, b ≤ 1 := by
    intro b hb
    rw [hHdef] at hb
    simp only [List.mem_append] at hb
    rcases hb with ((h | h) | h) | h
    · exact int_to_binary_bits _ _ b h
    · exact int_to_binary_bits _ _ b h
    · exact int_to_binary_bits _ _ b h
    · exact int_to_binary_bits _ _ b h
  set full_bits := header_bits ++ z with hFdef
  have hFlen : full_bits.length = 72 + z.length := by
    rw [hFdef, List.length_append, hHlen]
  have hFbits : ∀ b ∈ full_bits, b ≤ 1 := by
    intro b hb
    rw [hFdef, List.mem_append] at hb
    rcases hb with h | h
    · exact hHbits b h
    · exact hzbits b h
  set pad := (8 - full_bits.length % 8) % 8 with hpaddef
  have hpadded : (if full_bits.length % 8 = 0 then full_bits
      else full_bits ++ List.replicate (8 - full_bits.length % 8) 0) =
      full_bits ++ List.replicate pad 0 := by
    by_cases hc : full_bits.length % 8 = 0
    · rw [if_pos hc, hpaddef, hc]
      simp
    · rw [if_neg hc, hpaddef]
      have hm : full_bits.length % 8 < 8 := Nat.mod_lt _ (by omega)
      have : (8 - full_bits.length % 8) % 8 = 8 - full_bits.length % 8 := by omega
      rw [this]
  rw [hpadded]
  set padded := full_bits ++ List.replicate pad 0 with hPdef
  have hPaddedLen : padded.length = full_bits.length + pad := by
    rw [hPdef, List.length_append, List.length_replicate]
  have hPdvd : padded.length % 8 = 0 := by
    rw [hPaddedLen, hpaddef]
    omega
  have hPbits : ∀ b ∈ padded, b ≤ 1 := by
    intro b hb
    rw [hPdef, List.mem_append] at hb
    rcases hb with h | h
    · exact hFbits b h
    · simp at h
      omega
  set pixels := bitsToBytes padded with hpixdef
  have hback : bytesToBits pixels = padded := by
    rw [hpixdef]
    exact bytesToBits_bitsToBytes hPdvd hPbits
  have hpixlen : 8 * pixels.length = padded.length := by
    rw [hpixdef]
    exact bitsToBytes_length_dvd hPdvd
  have hnp : 10 ≤ pixels.length := by
    have : 73 ≤ padded.length := by
      rw [hPaddedLen, hFlen]
      have : z.length ≠ 0 := by
        intro hc
        exact hz0 (List.length_eq_zero.mp hc)
      omega
    omega
  set w := Nat.sqrt pixels.length with hwdef
  have hwpos : 0 < w := by
    rw [hwdef]
    exact Nat.sqrt_pos.mpr (by omega)
  set ht := (pixels.length + w - 1) / w with htdef
  have hwh : pixels.length ≤ w * ht := by
    rw [htdef]
    have hdm := Nat.div_add_mod (pixels.length + w - 1) w
    have hmod : (pixels.length + w - 1) % w < w := Nat.mod_lt _ hwpos
    omega
  have htake : (pixels ++ List.replicate (w * ht - pixels.length) 0).take (w * ht) =
      pixels ++ List.replicate (w * ht - pixels.length) 0 := by
    apply List.take_of_length_le
    rw [List.length_append, List.length_replicate]
    omega
  have hallbits : bytesToBits ((pixels ++
      List.replicate (w * ht - pixels.length) 0).take (w * ht)) =
      full_bits ++ List.replicate (pad + 8 * (w * ht - pixels.length)) 0 := by
    rw [htake, bytesToBits_append, hback, bytesToBits_replicate_zero, hPdef]
    rw [List.append_assoc, ← List.replicate_add]
  rw [image_to_z_with_header.eq_def]
  simp only [hallbits]
  have hablen : (full_bits ++ List.replicate (pad + 8 * (w * ht - pixels.length)) 0).length =
      72 + z.length + (pad + 8 * (w * ht - pixels.length)) := by
    rw [List.length_append, List.length_replicate, hFlen]
  have hzpos : 0 < z.length := by
    cases z with
    | nil => exact absurd rfl hz0
    | cons a t => simp
  rw [if_neg (by omega)]
  have hfull_assoc : full_bits ++ List.replicate (pad + 8 * (w * ht - pixels.length)) 0 =
      int_to_binary z.length 32 ++ (int_to_binary style 8 ++ (int_to_binary item 16 ++
        (int_to_binary size 16 ++
          (z ++ List.replicate (pad + 8 * (w * ht - pixels.length)) 0)))) := by
    rw [hFdef, hHdef]
    simp [List.append_assoc]
  have hparse1 : binary_to_int ((full_bits ++
      List.replicate (pad + 8 * (w * ht - pixels.length)) 0).take 32) = z.length := by
    rw [hfull_assoc, take_append_len hL32]
    exact binary_to_int_int_to_binary hzlen
  have hparse2 : binary_to_int (((full_bits ++
      List.replicate (pad + 8 * (w * ht - pixels.length)) 0).drop 32).take 8) = style := by
    rw [hfull_assoc, drop_append_len hL32, take_append_len hL8]
    exact binary_to_int_int_to_binary hstyle
  have hd40 : (full_bits ++ List.replicate (pad + 8 * (w * ht - pixels.length)) 0).drop 40 =
      int_to_binary item 16 ++ (int_to_binary size 16 ++
        (z ++ List.replicate (pad + 8 * (w * ht - pixels.length)) 0)) := by
    rw [hfull_assoc]
    rw [show (40 : ℕ) = 32 + 8 by rfl, ← List.drop_drop]
    rw [drop_append_len hL32, drop_append_len hL8]
  have hparse3 : binary_to_int (((full_bits ++
      List.replicate (pad + 8 * (w * ht - pixels.length)) 0).drop 40).take 16) = item := by
    rw [hd40, take_append_len hL16a]
    exact binary_to_int_int_to_binary hitem
  have hparse4 : binary_to_int (((full_bits ++
      List.replicate (pad + 8 * (w * ht - pixels.length)) 0).drop 56).take 16) = size := by
    rw [show (56 : ℕ) = 40 + 16 by rfl, ← List.drop_drop, hd40,
      drop_append_len hL16a, take_append_len hL16b]
    exact binary_to_int_int_to_binary hsize
  have hd72 : (full_bits ++ List.replicate (pad + 8 * (w * ht - pixels.length)) 0).drop 72 =
      z ++ List.replicate (pad + 8 * (w * ht - pixels.length)) 0 := by
    rw [show (72 : ℕ) = 56 + 16 by rfl, ← List.drop_drop,
      show (56 : ℕ) = 40 + 16 by rfl, ← List.drop_drop, hd40,
      drop_append_len hL16a, drop_append_len hL16b]
  simp only [hparse1, hparse2, hparse3, hparse4]
  rw [if_neg (by omega)]
  rw [hd72, take_append_len rfl]

/-! ## config.py constants -/

def BLOCK_SIZE : ℕ := 8
def TOTAL_AVERAGES_PER_UNIT : ℕ := 21
def Q_LENGTH : ℕ := 7
def IMAGE_HEADER_SIZE : ℕ := 34

/-- `calculate_capacity(image_width, image_height)` from embed.py/config.py. -/
def calculate_capacity (image_width image_height : ℕ) : ℕ :=
  (image_width / BLOCK_SIZE) * (image_height / BLOCK_SIZE) * TOTAL_AVERAGES_PER_UNIT

/-! ## Engine (embed.py / extract.py)

The cover is modelled as a grayscale grid: all three entry points collapse
a colour cover to grayscale with the same fixed luminance formula before
anything else, so embed and extract always see the same 2-D array. -/

structure Cover where
  h : ℕ
  w : ℕ
  pix : ℕ → ℕ → ℕ

/-- `block = cover_image[i*8:(i+1)*8, j*8:(j+1)*8]`. -/
def blockOf (cv : Cover) (i j : ℕ) : ℕ → ℕ → ℕ :=
  fun r c => cv.pix (i * BLOCK_SIZE + r) (j * BLOCK_SIZE + c)

/-- The 21 MSBs of one block: Q, hierarchical averages, three permutation
rounds, then `get_msbs`. -/
def blockMsbs (cv : Cover) (key : Option KeyData) (i j : ℕ) : List ℕ :=
  get_msbs (apply_Q_three_rounds (calculate_hierarchical_averages (blockOf cv i j))
    (generate_Q_from_block (.gray (blockOf cv i j)) Q_LENGTH key))

/-- Per-block MSB lists in the row-major block order both loops use. -/
def msbBlocks (cv : Cover) (key : Option KeyData) : List (List ℕ) :=
  ((List.range (cv.h / BLOCK_SIZE)).map (fun i =>
    (List.range (cv.w / BLOCK_SIZE)).map (fun j => blockMsbs cv key i j))).flatten

/-- The block-walking loop of `embed_secret`: each block consumes up to 21
payload bits through `map_to_z`; the loop stops the moment the payload is
exhausted (mid-block included). -/
def embedLoop : List (List ℕ) → List ℕ → List ℕ
  | [], _ => []
  | _, [] => []
  | msbs :: restBlocks, payload =>
      List.zipWith map_to_z payload msbs ++
        embedLoop restBlocks (payload.drop msbs.length)

/-- The block-walking loop of `extract_secret`/`detect_and_extract`:
identical walk, `map_from_z`, stops when the supplied Z-code is exhausted. -/
def extractLoop : List (List ℕ) → List ℕ → List ℕ
  | [], _ => []
  | _, [] => []
  | msbs :: restBlocks, zs =>
      List.zipWith map_from_z zs msbs ++
        extractLoop restBlocks (zs.drop msbs.length)

/-- A secret as handed to `embed_secret` together with its declared
`secret_type` ('text' carries a codepoint string, 'image' a PIL image). -/
inductive Secret where
  | text (cps : List ℕ)
  | image (img : SecretImage)
deriving DecidableEq, Repr

inductive SType where
  | text
  | image
deriving DecidableEq, Repr

def Secret.sty : Secret → SType
  | .text _ => .text
  | .image _ => .image

/-- The 1-bit type marker: 0 = text, 1 = image. -/
def Secret.marker : Secret → ℕ
  | .text _ => 0
  | .image _ => 1

/-- `content_bits` of step 2 of `embed_secret`. -/
def Secret.contentBits : Secret → List ℕ
  | .text s => text_to_binary s
  | .image im => image_to_binary im

/-- The encrypted payload assembled by step 3 of `embed_secret`: the type
marker is never encrypted; for an image whose content exceeds the 34-bit
header, the header bypasses encryption and only the pixel data is XORed;
otherwise the whole content is XORed. -/
def encryptedBits (secret : Secret) (contact_key : Option KeyData) : List ℕ :=
  match secret with
  | .text s => 0 :: xor_encrypt (text_to_binary s) contact_key
  | .image im =>
      if IMAGE_HEADER_SIZE < (image_to_binary im).length then
        1 :: ((image_to_binary im).take IMAGE_HEADER_SIZE ++
          xor_encrypt ((image_to_binary im).drop IMAGE_HEADER_SIZE) contact_key)
      else 1 :: xor_encrypt (image_to_binary im) contact_key

inductive EngineErr where
  | invalidDimensions
  | capacityExceeded
  | truncatedZ
deriving DecidableEq, Repr

structure EmbedInfo where
  isImage : Bool
  length : Option ℕ
  size : Option (ℕ × ℕ)
  mode : Option CMode
  bits : ℕ
deriving DecidableEq, Repr

def embedInfoOf : Secret → EmbedInfo
  | .text s => ⟨false, some s.length, none, none, (text_to_binary s).length + 1⟩
  | .image im => ⟨true, none, some (im.width, im.height), some im.mode,
      (image_to_binary im).length + 1⟩

/-- `embed_secret(cover_image, secret, secret_type, contact_key)`. -/
def embed_secret (cv : Cover) (secret : Secret) (contact_key : Option KeyData) :
    Except EngineErr (List ℕ × ℕ × EmbedInfo) :=
  if cv.h % 8 ≠ 0 ∨ cv.w % 8 ≠ 0 then .error .invalidDimensions
  else if (cv.h / BLOCK_SIZE) * (cv.w / BLOCK_SIZE) * TOTAL_AVERAGES_PER_UNIT <
      secret.contentBits.length + 1 then .error .capacityExceeded
  else .ok (embedLoop (msbBlocks cv contact_key) (encryptedBits secret contact_key),
    (cv.h / BLOCK_SIZE) * (cv.w / BLOCK_SIZE) * TOTAL_AVERAGES_PER_UNIT,
    embedInfoOf secret)

/-- The Python info dicts of extract_secret / detect_and_extract;
`error` records whether the dict carries the `'error'` key. -/
structure ExtractInfo where
  isImage : Bool
  length : Option ℕ
  size : Option (ℕ × ℕ)
  isColor : Option ℕ
  typeMarker : ℕ
  totalBits : ℕ
  contentBits : ℕ
  error : Bool
deriving DecidableEq, Repr

/-- `extract_secret(cover_image, z_bits, secret_type, contact_key)`.
When `binary_to_image` cannot decode, it returns `(None, None, None)`
rather than raising, so the unpacking in step 5 succeeds and the function
returns `None` as the secret with no `'error'` key: the `except` branch
that would synthesize a noise image is unreachable on that path. -/
def extract_secret (cv : Cover) (z_bits : List ℕ) (secret_type : SType)
    (contact_key : Option KeyData) :
    Except EngineErr (Option Secret × ExtractInfo) :=
  if cv.h % 8 ≠ 0 ∨ cv.w % 8 ≠ 0 then .error .invalidDimensions
  else
    match extractLoop (msbBlocks cv contact_key) z_bits with
    | [] => .error .truncatedZ
    | type_marker :: encrypted_content =>
      let content_bits :=
        if type_marker = 1 ∧ IMAGE_HEADER_SIZE < encrypted_content.length then
          encrypted_content.take IMAGE_HEADER_SIZE ++
            xor_decrypt (encrypted_content.drop IMAGE_HEADER_SIZE) contact_key
        else xor_decrypt encrypted_content contact_key
      match secret_type with
      | .text =>
          .ok (some (.text (binary_to_text content_bits)),
            ⟨false, some (binary_to_text content_bits).length, none, none,
              type_marker, content_bits.length + 1, content_bits.length, false⟩)
      | .image =>
          match binary_to_image content_bits with
          | some im =>
              .ok (some (.image im),
                ⟨true, none, some (im.width, im.height), some im.mode.isColorBit,
                  type_marker, content_bits.length + 1, content_bits.length, false⟩)
          | none =>
              .ok (none,
                ⟨true, none, none, none,
                  type_marker, content_bits.length + 1, content_bits.length, false⟩)

/-- The 64x64 noise fallback of `detect_and_extract`: pixel `i` is
`content_bits[i % len] * 255` when `i < len`, else 128 (the conditional is
evaluated lazily, so an empty list never divides by zero). -/
def noiseImage (content_bits : List ℕ) : SecretImage :=
  ⟨64, 64, CMode.L, (List.range 4096).map (fun i =>
    if i < content_bits.length then
      content_bits.getD (i % content_bits.length) 0 * 255
    else 128)⟩

/-- `detect_and_extract(cover_image, z_bits, contact_key)`.  Note: unlike
`embed_secret` and `extract_secret`, this function performs no
dimension-multiple-of-8 check before walking blocks. -/
def detect_and_extract (cv : Cover) (z_bits : List ℕ)
    (contact_key : Option KeyData) :
    Except EngineErr (Secret × SType × ExtractInfo) :=
  match extractLoop (msbBlocks cv contact_key) z_bits with
  | [] => .error .truncatedZ
  | type_marker :: encrypted_content =>
    let content_bits :=
      if type_marker = 1 ∧ IMAGE_HEADER_SIZE < encrypted_content.length then
        encrypted_content.take IMAGE_HEADER_SIZE ++
          xor_decrypt (encrypted_content.drop IMAGE_HEADER_SIZE) contact_key
      else xor_decrypt encrypted_content contact_key
    if type_marker = 0 then
      .ok (.text (binary_to_text content_bits), .text,
        ⟨false, some (binary_to_text content_bits).length, none, none,
          type_marker, content_bits.length + 1, content_bits.length, false⟩)
    else
      match binary_to_image content_bits with
      | some im =>
          .ok (.image im, .image,
            ⟨true, none, some (im.width, im.height), some im.mode.isColorBit,
              type_marker, content_bits.length + 1, content_bits.length, false⟩)
      | none =>
          .ok (.image (noiseImage content_bits), .image,
            ⟨true, none, some (64, 64), some 0,
              type_marker, content_bits.length + 1, content_bits.length, true⟩)

/-! ### Engine lemmas -/

theorem apply_permutation_length (v : List ℤ) (Q : List ℕ) :
    (apply_permutation v Q).length = Q.length := by
  simp [apply_permutation]

theorem generate_Q_length (block : BlockData) (key : Option KeyData) :
    (generate_Q_from_block block 7 key).length = 7 := by
  have := (generate_Q_perm block key).length_eq
  simpa using this

theorem blockMsbs_length (cv : Cover) (key : Option KeyData) (i j : ℕ) :
    (blockMsbs cv key i j).length = 21 := by
  rw [blockMsbs, get_msbs, List.length_map, apply_Q_three_rounds]
  rw [List.length_append, List.length_append]
  rw [apply_permutation_length, apply_permutation_length, apply_permutation_length]
  rw [show Q_LENGTH = 7 from rfl, generate_Q_length]

theorem get_msb_le_one (n : ℤ) : get_msb n ≤ 1 := by
  rw [get_msb]
  split <;> omega

theorem blockMsbs_bits (cv : Cover) (key : Option KeyData) (i j : ℕ) :
    ∀ m ∈ blockMsbs cv key i j, m ≤ 1 := by
  intro m hm
  rw [blockMsbs, get_msbs, List.mem_map] at hm
  obtain ⟨x, _, rfl⟩ := hm
  exact get_msb_le_one x

theorem flatten_length_const {α : Type} (Ms : List (List α)) (k : ℕ)
    (h : ∀ M ∈ Ms, M.length = k) : Ms.flatten.length = k * Ms.length := by
  induction Ms with
  | nil => simp
  | cons M rest ih =>
    rw [List.flatten_cons, List.length_append, h M (List.mem_cons_self ..),
      ih (fun x hx => h x (List.mem_cons_of_mem _ hx))]
    simp [List.length_cons]
    ring

theorem msbBlocks_mem {cv : Cover} {key : Option KeyData} {M : List ℕ}
    (h : M ∈ msbBlocks cv key) : ∃ i j, M = blockMsbs cv key i j := by
  rw [msbBlocks, List.mem_flatten] at h
  obtain ⟨row, hrow, hM⟩ := h
  rw [List.mem_map] at hrow
  obtain ⟨i, _, rfl⟩ := hrow
  rw [List.mem_map] at hM
  obtain ⟨j, _, rfl⟩ := hM
  exact ⟨i, j, rfl⟩

theorem msbBlocks_flatten_length (cv : Cover) (key : Option KeyData) :
    (msbBlocks cv key).flatten.length =
      (cv.h / BLOCK_SIZE) * (cv.w / BLOCK_SIZE) * TOTAL_AVERAGES_PER_UNIT := by
  have h21 : ∀ M ∈ msbBlocks cv key, M.length = 21 := by
    intro M hM
    obtain ⟨i, j, rfl⟩ := msbBlocks_mem hM
    exact blockMsbs_length cv key i j
  rw [flatten_length_const _ 21 h21]
  have hcount : (msbBlocks cv key).length =
      (cv.h / BLOCK_SIZE) * (cv.w / BLOCK_SIZE) := by
    rw [msbBlocks]
    rw [flatten_length_const _ (cv.w / BLOCK_SIZE) (by
      intro M hM
      rw [List.mem_map] at hM
      obtain ⟨i, _, rfl⟩ := hM
      simp)]
    simp [Nat.mul_comm]
  rw [hcount, show TOTAL_AVERAGES_PER_UNIT = 21 from rfl]
  ring

theorem msbBlocks_flatten_bits (cv : Cover) (key : Option KeyData) :
    ∀ m ∈ (msbBlocks cv key).flatten, m ≤ 1 := by
  intro m hm
  rw [List.mem_flatten] at hm
  obtain ⟨M, hM, hmm⟩ := hm
  obtain ⟨i, j, rfl⟩ := msbBlocks_mem hM
  exact blockMsbs_bits cv key i j m hmm

theorem zipWith_truncate_left {α β γ : Type} (f : α → β → γ) :
    ∀ (p : List α) (M : List β),
      List.zipWith f p M = List.zipWith f (p.take M.length) M := by
  intro p
  induction p with
  | nil => intro M; simp
  | cons a t ih =>
    intro M
    cases M with
    | nil => simp
    | cons m M2 =>
      rw [List.zipWith_cons_cons, List.length_cons, List.take_succ_cons,
        List.zipWith_cons_cons, ← ih M2]

theorem zipWith_append_right {α β γ : Type} (f : α → β → γ) :
    ∀ (M : List β) (p : List α) (R : List β),
      List.zipWith f p (M ++ R) =
        List.zipWith f (p.take M.length) M ++ List.zipWith f (p.drop M.length) R := by
  intro M
  induction M with
  | nil => intro p R; simp
  | cons m M2 ih =>
    intro p R
    cases p with
    | nil => simp
    | cons a t =>
      rw [List.cons_append, List.zipWith_cons_cons, List.length_cons,
        List.take_succ_cons, List.drop_succ_cons, List.zipWith_cons_cons, ih t R,
        List.cons_append]

theorem embedLoop_eq_zipWith :
    ∀ (Ms : List (List ℕ)) (p : List ℕ),
      embedLoop Ms p = List.zipWith map_to_z p Ms.flatten := by
  intro Ms
  induction Ms with
  | nil => intro p; simp [embedLoop]
  | cons M rest ih =>
    intro p
    cases p with
    | nil => simp [embedLoop]
    | cons a t =>
      show List.zipWith map_to_z (a :: t) M ++
        embedLoop rest ((a :: t).drop M.length) = _
      rw [List.flatten_cons, zipWith_append_right, ih, ← zipWith_truncate_left]

theorem extractLoop_eq_zipWith :
    ∀ (Ms : List (List ℕ)) (zs : List ℕ),
      extractLoop Ms zs = List.zipWith map_from_z zs Ms.flatten := by
  intro Ms
  induction Ms with
  | nil => intro zs; simp [extractLoop]
  | cons M rest ih =>
    intro zs
    cases zs with
    | nil => simp [extractLoop]
    | cons a t =>
      show List.zipWith map_from_z (a :: t) M ++
        extractLoop rest ((a :: t).drop M.length) = _
      rw [List.flatten_cons, zipWith_append_right, ih, ← zipWith_truncate_left]

theorem zipWith_map_inversion :
    ∀ (p F : List ℕ), (∀ b ∈ p, b ≤ 1) → (∀ m ∈ F, m ≤ 1) →
      p.length ≤ F.length →
      List.zipWith map_from_z (List.zipWith map_to_z p F) F = p := by
  intro p
  induction p with
  | nil => intro F _ _ _; simp
  | cons a t ih =>
    intro F hp hF hlen
    cases F with
    | nil => simp at hlen
    | cons m F2 =>
      rw [List.zipWith_cons_cons, List.zipWith_cons_cons]
      rw [map_from_z_map_to_z (hp a (List.mem_cons_self ..)) (hF m (List.mem_cons_self ..))]
      rw [ih F2 (fun x hx => hp x (List.mem_cons_of_mem _ hx))
        (fun x hx => hF x (List.mem_cons_of_mem _ hx)) (by simpa using hlen)]

theorem extractLoop_embedLoop (Ms : List (List ℕ)) (p : List ℕ)
    (hMs : ∀ m ∈ Ms.flatten, m ≤ 1) (hp : ∀ b ∈ p, b ≤ 1)
    (hlen : p.length ≤ Ms.flatten.length) :
    extractLoop Ms (embedLoop Ms p) = p := by
  rw [embedLoop_eq_zipWith, extractLoop_eq_zipWith]
  exact zipWith_map_inversion p Ms.flatten hp hMs hlen

theorem embedLoop_length (Ms : List (List ℕ)) (p : List ℕ)
    (hlen : p.length ≤ Ms.flatten.length) :
    (embedLoop Ms p).length = p.length := by
  rw [embedLoop_eq_zipWith, List.length_zipWith]
  omega

/-! ### Cipher lemmas -/

theorem keyBit_le_one (k : KeyData) (i : ℕ) : keyBit k i ≤ 1 := by
  rw [keyBit]
  have := Nat.mod_lt ((k.chain (i / 256) ⟨i % 256 / 8, by omega⟩).val / 2 ^ (7 - i % 8))
    (show 0 < 2 by omega)
  omega

theorem xor_le_one {a b : ℕ} (ha : a ≤ 1) (hb : b ≤ 1) : a ^^^ b ≤ 1 := by
  interval_cases a <;> interval_cases b <;> decide

theorem xor_encrypt_length (l : List ℕ) (key : Option KeyData) :
    (xor_encrypt l key).length = l.length := by
  cases key <;> simp [xor_encrypt]

theorem xor_decrypt_length (l : List ℕ) (key : Option KeyData) :
    (xor_decrypt l key).length = l.length := by
  cases key <;> simp [xor_decrypt]

theorem xor_encrypt_bits (l : List ℕ) (key : Option KeyData)
    (hl : ∀ b ∈ l, b ≤ 1) : ∀ b ∈ xor_encrypt l key, b ≤ 1 := by
  cases key with
  | none => exact hl
  | some k =>
    intro b hb
    rw [xor_encrypt, List.mem_map] at hb
    obtain ⟨i, _, rfl⟩ := hb
    apply xor_le_one _ (keyBit_le_one k i)
    by_cases hi : i < l.length
    · rw [List.getD_eq_getElem l 0 hi]
      exact hl _ (List.getElem_mem hi)
    · rw [List.getD_eq_default l 0 (by omega)]
      omega

/-- The keystream construction of `xor_decrypt` is identical to that of
`xor_encrypt`, so decryption undoes encryption bit by bit. -/
theorem xor_decrypt_xor_encrypt (l : List ℕ) (key : Option KeyData) :
    xor_decrypt (xor_encrypt l key) key = l := by
  cases key with
  | none => rfl
  | some k =>
    rw [xor_encrypt, xor_decrypt, List.length_map, List.length_range]
    have : ∀ i ∈ List.range l.length,
        ((List.range l.length).map
          (fun i => l.getD i 0 ^^^ keyBit k i)).getD i 0 ^^^ keyBit k i = l.getD i 0 := by
      intro i hi
      rw [List.mem_range] at hi
      rw [List.getD_eq_getElem _ 0 (by simp [hi]), List.getElem_map, List.getElem_range]
      exact Nat.xor_cancel_right _ _
    rw [List.map_congr_left this, map_getD_range]

/-! ### Payload lemmas -/

theorem text_to_binary_bits (s : List ℕ) : ∀ b ∈ text_to_binary s, b ≤ 1 := by
  intro b hb
  exact bytesToBits_bits _ b hb

theorem image_to_binary_bits (im : SecretImage) :
    ∀ b ∈ image_to_binary im, b ≤ 1 := by
  intro b hb
  rw [image_to_binary] at hb
  simp only [List.mem_append] at hb
  rcases hb with ((h | h) | h) | h
  · exact int_to_binary_bits _ _ b h
  · exact int_to_binary_bits _ _ b h
  · rcases List.mem_cons.mp h with h2 | h2
    · subst h2
      cases im.mode <;> simp [CMode.isColorBit]
    · rcases List.mem_cons.mp h2 with h3 | h3
      · subst h3
        cases im.mode <;> simp [CMode.hasAlphaBit]
      · simp at h3
  · exact bytesToBits_bits _ b h

theorem contentBits_bits (S : Secret) : ∀ b ∈ S.contentBits, b ≤ 1 := by
  cases S with
  | text s => exact text_to_binary_bits s
  | image im => exact image_to_binary_bits im

theorem encryptedBits_bits (S : Secret) (key : Option KeyData) :
    ∀ b ∈ encryptedBits S key, b ≤ 1 := by
  cases S with
  | text s =>
    intro b hb
    rw [encryptedBits] at hb
    rcases List.mem_cons.mp hb with h | h
    · omega
    · exact xor_encrypt_bits _ _ (text_to_binary_bits s) b h
  | image im =>
    intro b hb
    rw [encryptedBits] at hb
    split at hb
    · rcases List.mem_cons.mp hb with h | h
      · omega
      · rcases List.mem_append.mp h with h2 | h2
        · exact image_to_binary_bits im b (List.mem_of_mem_take h2)
        · refine xor_encrypt_bits _ _ ?_ b h2
          intro x hx
          exact image_to_binary_bits im x (List.mem_of_mem_drop hx)
    · rcases List.mem_cons.mp hb with h | h
      · omega
      · exact xor_encrypt_bits _ _ (image_to_binary_bits im) b h

theorem encryptedBits_length (S : Secret) (key : Option KeyData) :
    (encryptedBits S key).length = S.contentBits.length + 1 := by
  cases S with
  | text s =>
    rw [encryptedBits, Secret.contentBits, List.length_cons, xor_encrypt_length]
  | image im =>
    rw [encryptedBits, Secret.contentBits]
    split
    · rename_i hgt
      rw [List.length_cons, List.length_append, xor_encrypt_length,
        List.length_take, List.length_drop]
      rw [show IMAGE_HEADER_SIZE = 34 from rfl] at hgt ⊢
      omega
    · rw [List.length_cons, xor_encrypt_length]

/-- What extraction returns as the secret when fed a fresh embed output:
the deserialization of the serialized secret. -/
def decodeOf : Secret → Option Secret
  | .text s => some (.text (binary_to_text (text_to_binary s)))
  | .image im => (binary_to_image (image_to_binary im)).map Secret.image

/-- Core engine inversion: extracting (same cover, declared type, key) from
a successful embed's Z-code yields exactly the deserialize-of-serialize of
the secret. -/
theorem extract_of_embed {cv : Cover} {S : Secret} {key : Option KeyData}
    {z : List ℕ} {cap : ℕ} {info : EmbedInfo}
    (hE : embed_secret cv S key = Except.ok (z, cap, info)) :
    ∃ info2, extract_secret cv z S.sty key = Except.ok (decodeOf S, info2) := by
  by_cases hdim : cv.h % 8 ≠ 0 ∨ cv.w % 8 ≠ 0
  · rw [embed_secret, if_pos hdim] at hE
    exact absurd hE (by simp)
  by_cases hcap : (cv.h / BLOCK_SIZE) * (cv.w / BLOCK_SIZE) * TOTAL_AVERAGES_PER_UNIT <
      S.contentBits.length + 1
  · rw [embed_secret, if_neg hdim, if_pos hcap] at hE
    exact absurd hE (by simp)
  rw [embed_secret, if_neg hdim, if_neg hcap] at hE
  simp only [Except.ok.injEq, Prod.mk.injEq] at hE
  obtain ⟨hz, hcap2, hinfo⟩ := hE
  subst hz
  have hlenle : (encryptedBits S key).length ≤ (msbBlocks cv key).flatten.length := by
    rw [encryptedBits_length, msbBlocks_flatten_length]
    omega
  have hloop := extractLoop_embedLoop (msbBlocks cv key) (encryptedBits S key)
    (msbBlocks_flatten_bits cv key) (encryptedBits_bits S key) hlenle
  rw [extract_secret, if_neg hdim, hloop]
  cases S with
  | text s =>
    simp only [encryptedBits, Secret.sty]
    rw [if_neg (by simp)]
    rw [xor_decrypt_xor_encrypt]
    exact ⟨_, rfl⟩
  | image im =>
    by_cases hgt : IMAGE_HEADER_SIZE < (image_to_binary im).length
    · have henc : encryptedBits (Secret.image im) key =
          1 :: ((image_to_binary im).take IMAGE_HEADER_SIZE ++
            xor_encrypt ((image_to_binary im).drop IMAGE_HEADER_SIZE) key) := by
        rw [encryptedBits, if_pos hgt]
      simp only [henc, Secret.sty]
      have htklen : ((image_to_binary im).take IMAGE_HEADER_SIZE).length =
          IMAGE_HEADER_SIZE := by
        rw [List.length_take]
        omega
      have htail : ((image_to_binary im).take IMAGE_HEADER_SIZE ++
          xor_encrypt ((image_to_binary im).drop IMAGE_HEADER_SIZE) key).length =
          (image_to_binary im).length := by
        rw [List.length_append, xor_encrypt_length, List.length_drop, htklen]
        omega
      rw [if_pos (show True ∧ IMAGE_HEADER_SIZE <
          ((image_to_binary im).take IMAGE_HEADER_SIZE ++
            xor_encrypt ((image_to_binary im).drop IMAGE_HEADER_SIZE) key).length from
        ⟨trivial, by rw [htail]; exact hgt⟩)]
      rw [take_append_len htklen, drop_append_len htklen, xor_decrypt_xor_encrypt,
        List.take_append_drop]
      cases hbi : binary_to_image (image_to_binary im) with
      | some im2 =>
        rw [decodeOf, hbi]
        exact ⟨_, rfl⟩
      | none =>
        rw [decodeOf, hbi]
        exact ⟨_, rfl⟩
    · have henc : encryptedBits (Secret.image im) key =
          1 :: xor_encrypt (image_to_binary im) key := by
        rw [encryptedBits, if_neg hgt]
      simp only [henc, Secret.sty]
      rw [if_neg (show ¬(True ∧ IMAGE_HEADER_SIZE <
          (xor_encrypt (image_to_binary im) key).length) by
        rw [xor_encrypt_length]
        simp only [true_and, not_lt]
        omega)]
      rw [xor_decrypt_xor_encrypt]
      cases hbi : binary_to_image (image_to_binary im) with
      | some im2 =>
        rw [decodeOf, hbi]
        exact ⟨_, rfl⟩
      | none =>
        rw [decodeOf, hbi]
        exact ⟨_, rfl⟩

/-! ## Claim theorems -/

/-- The 8x8 test block of config.py (figure 2 of the paper). -/
def TEST_IMAGE : List (List ℕ) :=
  [[44, 61, 72, 58, 70, 79, 66, 79],
   [74, 65, 79, 62, 82, 62, 49, 38],
   [127, 93, 75, 56, 82, 84, 80, 40],
   [112, 117, 103, 60, 98, 88, 92, 79],
   [50, 79, 114, 59, 108, 149, 117, 122],
   [57, 50, 68, 87, 111, 158, 150, 109],
   [89, 85, 64, 84, 134, 116, 90, 105],
   [99, 107, 66, 32, 91, 123, 60, 75]]

def testBlock : ℕ → ℕ → ℕ := fun r c => (TEST_IMAGE.getD r []).getD c 0

def cover8 : Cover := ⟨8, 8, fun _ _ => 0⟩
def cover12 : Cover := ⟨12, 12, fun _ _ => 0⟩
def cover16 : Cover := ⟨16, 16, fun _ _ => 0⟩

/-- Modelled from the claim's wording for C2: Q[i] as "the 1-based rank of
position i in the stable ascending sort of the first 7 entries", i.e. one
plus the number of entries strictly before position i in the stable order
(smaller value, or equal value at an earlier position). -/
def rankOfPositions (v : List ℚ) : List ℕ :=
  (List.range 7).map (fun i =>
    1 + ((List.range 7).filter (fun j =>
      decide (v.getD j 0 < v.getD i 0 ∨ (v.getD j 0 = v.getD i 0 ∧ j < i)))).length)

/-- C2 counterexample: on the config.py test block (first row
44,61,72,58,70,79,66) the code returns `argsort + 1 = [1,4,2,7,5,3,6]`,
while the rank of position i is the inverse permutation `[1,3,6,2,5,7,4]`;
they differ, so Q[i] is not the rank of position i. -/
theorem C2_rank_counterexample :
    generate_Q_from_block (BlockData.gray testBlock) 7 none ≠
      rankOfPositions ((firstRowVals (BlockData.gray testBlock)).take 7) := by
  decide

/-- C2 (amended): with no correspondent key, `generate_Q_from_block`
returns `argsort + 1`: Q is a permutation of 1..7 and reading the first
seven first-row values (grayscale luminance for a colour block) at
positions Q[0]-1, Q[1]-1, ..., Q[6]-1 lists them in stable ascending
order - ascending by value with ties kept in original position order.
Equivalently Q[i] is 1 plus the position of the (i+1)-th smallest entry
(the inverse of the rank-of-position description in the claim). -/
theorem C2_argsort_amended (bd : BlockData) :
    (generate_Q_from_block bd 7 none).Perm (List.range' 1 7) ∧
      List.Sorted (argLe ((firstRowVals bd).take 7))
        ((generate_Q_from_block bd 7 none).map (· - 1)) := by
  refine ⟨generate_Q_perm bd none, ?_⟩
  have hmap : (generate_Q_from_block bd 7 none).map (· - 1) =
      argsortIdx ((firstRowVals bd).take 7) := by
    show ((argsortIdx ((firstRowVals bd).take 7)).map (· + 1)).map (· - 1) = _
    rw [List.map_map]
    have hid : ((· - 1) ∘ (· + 1) : ℕ → ℕ) = id := by
      funext x
      simp
    rw [hid, List.map_id]
  rw [hmap]
  exact argsortIdx_sorted _

/-- C10: for every block (grayscale or colour) and every optional
correspondent key, Q has 7 entries forming a full permutation of
{1,...,7}; determinism is definitional in this purely functional model
(same block and key give the same Q). -/
theorem C10_Q_full_permutation (bd : BlockData) (key : Option KeyData) :
    (generate_Q_from_block bd 7 key).length = 7 ∧
      (generate_Q_from_block bd 7 key).Perm (List.range' 1 7) ∧
      generate_Q_from_block bd 7 key = generate_Q_from_block bd 7 key :=
  ⟨generate_Q_length bd key, generate_Q_perm bd key, rfl⟩

/-! ### C5: hierarchical averages -/

/-- Pixel sum of the 2x2 sub-block at grid position (a, c). -/
def subSum (b : ℕ → ℕ → ℕ) (a c : ℕ) : ℕ :=
  b (2 * a) (2 * c) + b (2 * a) (2 * c + 1) +
    b (2 * a + 1) (2 * c) + b (2 * a + 1) (2 * c + 1)

/-- Pixel sum of the 4x4 group at grid position (a, c). -/
def groupSum (b : ℕ → ℕ → ℕ) (a c : ℕ) : ℕ :=
  subSum b (2 * a) (2 * c) + subSum b (2 * a) (2 * c + 1) +
    subSum b (2 * a + 1) (2 * c) + subSum b (2 * a + 1) (2 * c + 1)

/-- Pixel sum of the whole 8x8 block. -/
def blockSum (b : ℕ → ℕ → ℕ) : ℕ :=
  groupSum b 0 0 + groupSum b 0 1 + groupSum b 1 0 + groupSum b 1 1

theorem floor_natCast_div (n m : ℕ) (hm : 0 < m) :
    ⌊((n : ℚ) / (m : ℚ))⌋ = ((n / m : ℕ) : ℤ) := by
  have hm' : (0 : ℚ) < m := by exact_mod_cast hm
  rw [Int.floor_eq_iff]
  constructor
  · rw [le_div_iff₀ hm']
    push_cast
    exact_mod_cast Nat.div_mul_le_self n m
  · rw [div_lt_iff₀ hm']
    have hkey : n < (n / m + 1) * m := by
      have h1 := Nat.div_add_mod n m
      have h2 := Nat.mod_lt n hm
      have h3 : (n / m + 1) * m = m * (n / m) + m := by ring
      omega
    push_cast
    exact_mod_cast hkey

theorem layer2F_eq_groupSum (b : ℕ → ℕ → ℕ) (a c : ℕ) :
    layer2F b a c = ((groupSum b a c : ℕ) : ℚ) / 16 := by
  simp only [layer2F, layer1F, groupSum, subSum]
  push_cast
  ring

theorem layer3F_eq_blockSum (b : ℕ → ℕ → ℕ) :
    layer3F b = ((blockSum b : ℕ) : ℚ) / 64 := by
  simp only [layer3F, layer2F, layer1F, blockSum, groupSum, subSum]
  push_cast
  ring

/-- The 21 outputs, computed with exact rational means, coincide with nat
division of the corresponding pixel sums (floor of a nonnegative exact
mean): this is what makes the averaging pipeline kernel-computable. -/
theorem hier_avg_natDiv (b : ℕ → ℕ → ℕ) :
    calculate_hierarchical_averages b =
      (List.range 16).map (fun t => ((subSum b (t / 4) (t % 4) / 4 : ℕ) : ℤ)) ++
        ((List.range 4).map (fun t => ((groupSum b (t / 2) (t % 2) / 16 : ℕ) : ℤ)) ++
          [((blockSum b / 64 : ℕ) : ℤ)]) := by
  rw [calculate_hierarchical_averages]
  congr 1
  · apply List.map_congr_left
    intro t ht
    have h1 : layer1F b (t / 4) (t % 4) =
        ((subSum b (t / 4) (t % 4) : ℕ) : ℚ) / 4 := rfl
    rw [h1, show (4 : ℚ) = ((4 : ℕ) : ℚ) from by norm_num,
      floor_natCast_div _ 4 (by norm_num)]
  congr 1
  · apply List.map_congr_left
    intro t ht
    rw [layer2F_eq_groupSum, show (16 : ℚ) = ((16 : ℕ) : ℚ) from by norm_num,
      floor_natCast_div _ 16 (by norm_num)]
  · rw [layer3F_eq_blockSum, show (64 : ℚ) = ((64 : ℕ) : ℚ) from by norm_num,
      floor_natCast_div _ 64 (by norm_num)]

/-- C5: for every 8x8 block, `calculate_hierarchical_averages` returns
exactly 21 integers in the order [16 layer-1 row-major, 4 layer-2
row-major, 1 layer-3]; each layer-1 output is the truncated mean
`subSum / 4` of its 2x2 sub-block, each layer-2 output is the truncated
mean of the four un-truncated layer-1 floating means - equal to
`groupSum / 16`, with truncation only at materialization - and the
layer-3 output is the truncated mean of the four un-truncated layer-2
means, `blockSum / 64` (truncation of nonnegative values = floor = `ℕ`
division). -/
theorem C5_hierarchical_averages (b : ℕ → ℕ → ℕ) :
    (calculate_hierarchical_averages b).length = 21 ∧
      calculate_hierarchical_averages b =
        (List.range 16).map (fun t => ((subSum b (t / 4) (t % 4) / 4 : ℕ) : ℤ)) ++
          ((List.range 4).map (fun t => ((groupSum b (t / 2) (t % 2) / 16 : ℕ) : ℤ)) ++
            [((blockSum b / 64 : ℕ) : ℤ)]) :=
  ⟨by rw [calculate_hierarchical_averages]; simp, hier_avg_natDiv b⟩

/-- C6: the keyed XOR stream cipher is an involution - decrypting an
encryption with the same key returns the original bit vector - and with
an absent/empty key (modelled as `none`) the cipher is the identity. -/
theorem C6_cipher_involution (k : KeyData) (B : List ℕ) :
    xor_decrypt (xor_encrypt B (some k)) (some k) = B ∧
      xor_encrypt B none = B :=
  ⟨xor_decrypt_xor_encrypt B (some k), rfl⟩

/-- C9: for every non-empty Z-code of length below 2^32 with bit entries,
and header fields style in [0,255], item and size in [0,65535], decoding
the carrier image produced by `z_to_image_with_header` via
`image_to_z_with_header` recovers exactly the original Z-code and the
three header values. -/
theorem C9_carrier_header_roundtrip (z : List ℕ) (style item size : ℕ)
    (hz0 : z ≠ []) (hzlen : z.length < 2 ^ 32) (hzbits : ∀ b ∈ z, b ≤ 1)
    (hstyle : style ≤ 255) (hitem : item ≤ 65535) (hsize : size ≤ 65535) :
    image_to_z_with_header (z_to_image_with_header z style item size).1 =
      Except.ok (z, style, item, size) :=
  carrier_roundtrip_core z style item size hz0 hzlen hzbits
    (lt_of_le_of_lt hstyle (by norm_num))
    (lt_of_le_of_lt hitem (by norm_num))
    (lt_of_le_of_lt hsize (by norm_num))

theorem C9_carrier_header_roundtrip_witness :
    ([1, 0, 1, 1] : List ℕ) ≠ [] ∧
      ([1, 0, 1, 1] : List ℕ).length < 2 ^ 32 ∧
      (∀ b ∈ ([1, 0, 1, 1] : List ℕ), b ≤ 1) ∧
      image_to_z_with_header (z_to_image_with_header [1, 0, 1, 1] 2 5 256).1 =
        Except.ok ([1, 0, 1, 1], 2, 5, 256) :=
  ⟨by decide, by decide, by decide,
    C9_carrier_header_roundtrip [1, 0, 1, 1] 2 5 256 (by decide) (by decide)
      (by decide) (by decide) (by decide) (by decide)⟩

/-- C8: whenever `embed_secret` succeeds, the Z-code it returns has length
exactly the encrypted-payload length, which is 1 type-marker bit plus the
content bit count - never padded to a multiple of the 21 bits per block. -/
theorem C8_zcode_length {cv : Cover} {S : Secret} {key : Option KeyData}
    {z : List ℕ} {cap : ℕ} {info : EmbedInfo}
    (hE : embed_secret cv S key = Except.ok (z, cap, info)) :
    z.length = (encryptedBits S key).length ∧
      (encryptedBits S key).length = S.contentBits.length + 1 := by
  by_cases hdim : cv.h % 8 ≠ 0 ∨ cv.w % 8 ≠ 0
  · rw [embed_secret, if_pos hdim] at hE
    exact absurd hE (by simp)
  · rw [embed_secret, if_neg hdim] at hE
    by_cases hcap : (cv.h / BLOCK_SIZE) * (cv.w / BLOCK_SIZE) *
        TOTAL_AVERAGES_PER_UNIT < S.contentBits.length + 1
    · rw [if_pos hcap] at hE
      exact absurd hE (by simp)
    · rw [if_neg hcap] at hE
      simp only [Except.ok.injEq, Prod.mk.injEq] at hE
      have hz : z = embedLoop (msbBlocks cv key) (encryptedBits S key) := hE.1.symm
      rw [hz, embedLoop_length]
      · exact ⟨rfl, encryptedBits_length S key⟩
      · rw [msbBlocks_flatten_length, encryptedBits_length]
        omega

def secretH : Secret := .text [72]
def zH : List ℕ := [1, 1, 0, 1, 1, 0, 1, 1, 1]
def infoH : EmbedInfo := ⟨false, some 1, none, none, 9⟩

theorem blockOf_zero (h w i j : ℕ) :
    blockOf ⟨h, w, fun _ _ => 0⟩ i j = (fun _ _ => 0) := rfl

theorem hier_avg_zero :
    calculate_hierarchical_averages (fun _ _ => 0) = List.replicate 21 0 := by
  rw [hier_avg_natDiv]
  decide

theorem blockMsbs_zero (h w i j : ℕ) :
    blockMsbs ⟨h, w, fun _ _ => 0⟩ none i j = List.replicate 21 0 := by
  rw [blockMsbs, blockOf_zero, hier_avg_zero]
  decide

theorem msbBlocks_cover8 : msbBlocks cover8 none = [List.replicate 21 0] := by
  have h1 : ∀ i j, blockMsbs cover8 none i j = List.replicate 21 0 :=
    fun i j => blockMsbs_zero 8 8 i j
  rw [msbBlocks, show cover8.h / BLOCK_SIZE = 1 from rfl,
    show cover8.w / BLOCK_SIZE = 1 from rfl]
  simp [h1]

theorem msbBlocks_cover12 : msbBlocks cover12 none = [List.replicate 21 0] := by
  have h1 : ∀ i j, blockMsbs cover12 none i j = List.replicate 21 0 :=
    fun i j => blockMsbs_zero 12 12 i j
  rw [msbBlocks, show cover12.h / BLOCK_SIZE = 1 from rfl,
    show cover12.w / BLOCK_SIZE = 1 from rfl]
  simp [h1]

theorem msbBlocks_cover16 :
    msbBlocks cover16 none =
      [List.replicate 21 0, List.replicate 21 0,
        List.replicate 21 0, List.replicate 21 0] := by
  have h1 : ∀ i j, blockMsbs cover16 none i j = List.replicate 21 0 :=
    fun i j => blockMsbs_zero 16 16 i j
  rw [msbBlocks, show cover16.h / BLOCK_SIZE = 2 from rfl,
    show cover16.w / BLOCK_SIZE = 2 from rfl]
  simp [h1, List.range_succ]

/-- Concrete evaluation: embedding the one-character text "H" with no key
in the all-zero 8x8 cover yields the 9-bit Z-code `zH`. -/
theorem embed_cover8_H :
    embed_secret cover8 secretH none = Except.ok (zH, 21, infoH) := by
  have hd : ¬(cover8.h % 8 ≠ 0 ∨ cover8.w % 8 ≠ 0) := by decide
  have hc : ¬((cover8.h / BLOCK_SIZE) * (cover8.w / BLOCK_SIZE) *
      TOTAL_AVERAGES_PER_UNIT < secretH.contentBits.length + 1) := by decide
  rw [embed_secret, if_neg hd, if_neg hc, msbBlocks_cover8]
  decide

theorem C8_zcode_length_witness :
    embed_secret cover8 secretH none = Except.ok (zH, 21, infoH) ∧
      zH.length = (encryptedBits secretH none).length ∧
      (encryptedBits secretH none).length = secretH.contentBits.length + 1 :=
  ⟨embed_cover8_H, C8_zcode_length embed_cover8_H⟩

/-- C3 (observed behaviour at a failing input, contradicting the claim):
on the all-zero 8x8 cover with the 1-bit Z-code `[1]` and
`secret_type = image`, `binary_to_image` cannot reconstruct an image from
the empty content, but instead of raising it returns `(None, None, None)`
(its blanket `except` swallows every error), so `extract_secret` returns
`None` as the secret with `error = false`: no 64x64 noise image and no
error flag are ever produced on this path. -/
theorem C3_image_decode_failure_no_noise :
    extract_secret cover8 [1] SType.image none =
      Except.ok (none, ⟨true, none, none, none, 0, 1, 0, false⟩) := by
  have hd : ¬(cover8.h % 8 ≠ 0 ∨ cover8.w % 8 ≠ 0) := by decide
  rw [extract_secret, if_neg hd, msbBlocks_cover8]
  decide

/-- C4 (amended): `embed_secret` and `extract_secret` both fail fast with
`InvalidDimensions` when either cover dimension is not a multiple of 8,
but `detect_and_extract` performs no dimension check at all (see the
counterexample), so the claim holds only for the first two entry points. -/
theorem C4_dimension_check_amended (cv : Cover) (S : Secret) (z : List ℕ)
    (ty : SType) (key : Option KeyData)
    (hdim : cv.h % 8 ≠ 0 ∨ cv.w % 8 ≠ 0) :
    embed_secret cv S key = Except.error EngineErr.invalidDimensions ∧
      extract_secret cv z ty key = Except.error EngineErr.invalidDimensions :=
  ⟨by rw [embed_secret, if_pos hdim], by rw [extract_secret, if_pos hdim]⟩

theorem C4_dimension_check_witness :
    (cover12.h % 8 ≠ 0 ∨ cover12.w % 8 ≠ 0) ∧
      embed_secret cover12 secretH none =
        Except.error EngineErr.invalidDimensions ∧
      extract_secret cover12 [1] SType.text none =
        Except.error EngineErr.invalidDimensions :=
  ⟨by decide,
    C4_dimension_check_amended cover12 secretH [1] SType.text none (by decide)⟩

/-- C4 counterexample: `detect_and_extract` never checks the cover
dimensions: on the 12x12 all-zero cover (12 is not a multiple of 8) with
Z-code `[1]` it succeeds and returns the empty text instead of failing
with `InvalidDimensions`. -/
theorem utf8DecodeIgnore_nil : utf8DecodeIgnore [] = [] := by
  rw [utf8DecodeIgnore]

theorem binary_to_text_nil : binary_to_text [] = [] := by
  rw [binary_to_text]
  show utf8DecodeIgnore [] = []
  rw [utf8DecodeIgnore]

theorem C4_dimension_check_counterexample :
    detect_and_extract cover12 [1] none =
      Except.ok (Secret.text [], SType.text,
        ⟨false, some 0, none, none, 0, 1, 0, false⟩) := by
  rw [detect_and_extract, msbBlocks_cover12]
  have hLoop : extractLoop [List.replicate 21 0] [1] = [0] := by decide
  simp only [hLoop]
  rw [if_neg (by decide : ¬((0 : ℕ) = 1 ∧ IMAGE_HEADER_SIZE < ([] : List ℕ).length))]
  rw [if_pos trivial]
  rw [show xor_decrypt [] none = [] from rfl, binary_to_text_nil]
  rfl

def keyFF : KeyData := ⟨fun _ _ => (255 : Fin 256), fun _ => 0⟩

def imgEmpty : SecretImage := ⟨0, 0, CMode.L, []⟩

/-- C7 counterexample: for the 0x0 grayscale image the serialized content
is exactly the 34 header bits, so the code's strict
`34 < len(content_bits)` test fails and the whole content - header
included - is XORed with the keystream.  With a key whose SHA-256 chain is
all `0xFF` bytes, the keystream is all ones, every header bit flips, and
the 34 bits after the type marker no longer equal the serialized header. -/
theorem C7_header_counterexample :
    ((encryptedBits (Secret.image imgEmpty) (some keyFF)).drop 1).take
        IMAGE_HEADER_SIZE ≠
      (image_to_binary imgEmpty).take IMAGE_HEADER_SIZE := by
  decide

/-- C7 (amended): the type marker is never encrypted, and for an image
secret whose serialized content strictly exceeds the 34 header bits (i.e.
the image has at least one pixel) the 34 bits after the marker are the
serialized header passed through unencrypted, and only the remaining
content bits are XORed with the keystream.  The counterexample shows the
header of a pixel-less image is encrypted, so the size hypothesis is
exactly what the code's strict comparison requires. -/
theorem C7_header_unencrypted_amended (im : SecretImage) (key : Option KeyData)
    (hgt : IMAGE_HEADER_SIZE < (image_to_binary im).length) :
    (∀ S : Secret, (encryptedBits S key).take 1 = [S.marker]) ∧
      (encryptedBits (Secret.image im) key).take (IMAGE_HEADER_SIZE + 1) =
        1 :: (image_to_binary im).take IMAGE_HEADER_SIZE ∧
      (encryptedBits (Secret.image im) key).drop (IMAGE_HEADER_SIZE + 1) =
        xor_encrypt ((image_to_binary im).drop IMAGE_HEADER_SIZE) key := by
  have htk : ((image_to_binary im).take IMAGE_HEADER_SIZE).length =
      IMAGE_HEADER_SIZE := by
    rw [List.length_take]
    omega
  refine ⟨?_, ?_, ?_⟩
  · intro S
    cases S with
    | text s => rfl
    | image im2 =>
      rw [encryptedBits, Secret.marker]
      by_cases h : IMAGE_HEADER_SIZE < (image_to_binary im2).length
      · rw [if_pos h]
        rfl
      · rw [if_neg h]
        rfl
  · rw [encryptedBits, if_pos hgt, List.take_succ_cons, take_append_len htk]
  · rw [encryptedBits, if_pos hgt, List.drop_succ_cons, drop_append_len htk]

theorem C7_header_unencrypted_witness :
    IMAGE_HEADER_SIZE <
        (image_to_binary ⟨1, 1, CMode.L, [7]⟩).length ∧
      (encryptedBits (Secret.image ⟨1, 1, CMode.L, [7]⟩) (some keyFF)).take
          (IMAGE_HEADER_SIZE + 1) =
        1 :: (image_to_binary ⟨1, 1, CMode.L, [7]⟩).take IMAGE_HEADER_SIZE :=
  ⟨by decide,
    (C7_header_unencrypted_amended ⟨1, 1, CMode.L, [7]⟩ (some keyFF)
      (by decide)).2.1⟩

/-- The round-trip property claimed for a cover, secret and key: whenever
embedding succeeds, extracting from the produced Z-code with the same
cover, declared type and key returns the original secret. -/
def RoundTripHolds (cv : Cover) (S : Secret) (key : Option KeyData) : Prop :=
  ∀ z cap info, embed_secret cv S key = Except.ok (z, cap, info) →
    ∃ info2, extract_secret cv z S.sty key = Except.ok (some S, info2)

/-- Well-formedness of a secret: a text is a sequence of Unicode scalar
values (guaranteed for any Python `str`), an image carries byte pixels
matching its claimed geometry and its width and height fit the 16-bit
header fields. -/
def Secret.Wfd : Secret → Prop
  | .text cps => ∀ c ∈ cps, ValidScalar c
  | .image im => SecretImage.Wf im ∧ im.width < 65536 ∧ im.height < 65536

def imgWide : SecretImage := ⟨65536, 0, CMode.L, []⟩

def imgWrong : SecretImage := ⟨32768, 0, CMode.L, []⟩

/-- C1 counterexample: the 65536x0 grayscale image is well-formed pixel
data (PIL accepts any sizes), but its width overflows the 16-bit header
field: `int_to_binary` pads and never truncates, so the serialized header
is 35 bits instead of 34, the parser reads the first 16 bits `1,0,...,0`
of the 17-bit width as width 32768, and round-tripping through the
all-zero 16x16 cover with no key returns the 32768x0 image, not the
original. -/
theorem C1_round_trip_counterexample :
    ¬ RoundTripHolds cover16 (Secret.image imgWide) none := by
  intro h
  have hd : ¬(cover16.h % 8 ≠ 0 ∨ cover16.w % 8 ≠ 0) := by decide
  have hc : ¬((cover16.h / BLOCK_SIZE) * (cover16.w / BLOCK_SIZE) *
      TOTAL_AVERAGES_PER_UNIT <
        (Secret.image imgWide).contentBits.length + 1) := by decide
  have hE : embed_secret cover16 (Secret.image imgWide) none = Except.ok
      (embedLoop (msbBlocks cover16 none)
        (encryptedBits (Secret.image imgWide) none),
      (cover16.h / BLOCK_SIZE) * (cover16.w / BLOCK_SIZE) *
        TOTAL_AVERAGES_PER_UNIT,
      embedInfoOf (Secret.image imgWide)) := by
    rw [embed_secret, if_neg hd, if_neg hc]
  obtain ⟨i2, hX⟩ := h _ _ _ hE
  obtain ⟨i3, hY⟩ := extract_of_embed hE
  rw [hX] at hY
  have hdec : decodeOf (Secret.image imgWide) =
      some (Secret.image imgWrong) := by
    rw [decodeOf]
    decide
  rw [hdec] at hY
  simp only [Except.ok.injEq, Prod.mk.injEq] at hY
  exact absurd hY.1 (by decide)

/-- C1 (amended): the round trip holds for every cover, every key and
every well-formed secret - text made of Unicode scalar values, or an
image whose pixel bytes match its geometry and whose width and height fit
the 16-bit header fields.  The counterexample shows the header bound is
necessary; all other hypotheses of the original claim (dimensions
multiple of 8, payload within capacity) are kept implicit by quantifying
over successful embeds only. -/
theorem C1_round_trip_amended (cv : Cover) (S : Secret)
    (key : Option KeyData) (hwf : S.Wfd) : RoundTripHolds cv S key := by
  intro z cap info hE
  obtain ⟨info2, hX⟩ := extract_of_embed hE
  refine ⟨info2, ?_⟩
  rw [hX]
  cases S with
  | text cps =>
    rw [decodeOf, binary_to_text_text_to_binary hwf]
  | image im =>
    rw [decodeOf, binary_to_image_image_to_binary hwf.1 hwf.2.1 hwf.2.2]
    rfl

theorem C1_round_trip_witness :
    Secret.Wfd secretH ∧
      embed_secret cover8 secretH none = Except.ok (zH, 21, infoH) ∧
      RoundTripHolds cover8 secretH none :=
  ⟨(show ∀ c ∈ ([72] : List ℕ), ValidScalar c by decide),
    embed_cover8_H,
    C1_round_trip_amended cover8 secretH none
      (show ∀ c ∈ ([72] : List ℕ), ValidScalar c by decide)⟩
